import Mathlib

/-!
# Verification of the swingcoach segmentation-and-scoring engine

Shallow embedding of the core analysis code of the repository:

* `src/backend/analysis/tennis_analyzer.py` — pose-modality analyzer
  (`TennisSwingAnalyzer`): per-frame phase runs, phase-boundary map,
  contact-frame selection, torso rotation, scoring, headline metrics.
* `src/swing_analyzer.py` — IMU-modality analyzer (`analyze_swing`,
  `_find_phase_boundaries`, `_smooth`): sample-count guard, conditioning,
  peak detection, 10%-of-peak boundary walks, structured error results.
* `src/export_metrics.py` — `smooth_array` (Savitzky–Golay wrapper).

Python floats are modelled by `ℚ` (the claims under scrutiny concern the
exact branch structure and linear arithmetic of the code, not float
rounding).  External-library numerics that the source merely calls
(`scipy.signal.sosfiltfilt` coefficients, `savgol_filter` least-squares
kernels, `np.linalg.norm`) are taken as explicit parameters of the
embedding; the surrounding structure (guards, padding, filtering loops,
peak search, walks) is translated from the source / the library's
documented algorithm.
-/

namespace SwingCoach

/- Batteries marks the `Rat` field operations `@[irreducible]`; restore
definitional transparency inside this file so that concrete instances of
the embedded pipeline evaluate under `decide`. -/
attribute [local semireducible] Rat.add Rat.mul Rat.sub Rat.inv Rat.ofScientific

/-- Indexing helper: `l[i]` with NumPy-array semantics for in-range access.
All uses below are guarded so that only in-range indices matter. -/
def xi (l : List ℚ) (i : ℕ) : ℚ := l.getD i 0

/-- `np.max` over a nonempty array (`0` junk value on `[]`, where NumPy
raises; every use is guarded by a nonemptiness check in the source). -/
def listMax (l : List ℚ) : ℚ :=
  match l with
  | [] => 0
  | a :: r => r.foldl max a

theorem listMax_cons (a : ℚ) (r : List ℚ) :
    listMax (a :: r) = r.foldl max a := rfl

/-- `np.argmax`: index of the first occurrence of the maximum. -/
def argmaxList (l : List ℚ) : ℕ := l.indexOf (listMax l)

theorem foldl_max_mem : ∀ (r : List ℚ) (a : ℚ),
    r.foldl max a = a ∨ r.foldl max a ∈ r := by
  intro r
  induction r with
  | nil => intro a; exact Or.inl rfl
  | cons b r ih =>
    intro a
    simp only [List.foldl]
    rcases ih (max a b) with h | h
    · rw [h]
      rcases max_choice a b with h1 | h1 <;> rw [h1]
      · exact Or.inl rfl
      · exact Or.inr (List.mem_cons_self b r)
    · exact Or.inr (List.mem_cons_of_mem b h)

theorem listMax_mem : ∀ (l : List ℚ), l ≠ [] → listMax l ∈ l := by
  intro l hl
  match l with
  | a :: r =>
    rw [listMax_cons]
    rcases foldl_max_mem r a with h | h
    · simp [h]
    · exact List.mem_cons_of_mem a h

theorem le_listMax : ∀ (l : List ℚ), ∀ v ∈ l, v ≤ listMax l := by
  intro l
  match l with
  | [] => intro v hv; exact absurd hv (List.not_mem_nil v)
  | a :: r =>
    rw [listMax_cons]
    suffices h : ∀ (r : List ℚ) (a : ℚ), a ≤ r.foldl max a ∧
        ∀ v ∈ r, v ≤ r.foldl max a by
      intro v hv
      rcases List.mem_cons.mp hv with h1 | h1
      · subst h1; exact (h r v).1
      · exact (h r a).2 v h1
    clear l
    intro r
    induction r with
    | nil => intro a; exact ⟨le_refl a, by simp⟩
    | cons b r ih =>
      intro a
      constructor
      · exact le_trans (le_max_left a b) (ih (max a b)).1
      · intro v hv
        rcases List.mem_cons.mp hv with h1 | h1
        · subst h1
          exact le_trans (le_max_right a v) (ih (max a v)).1
        · exact (ih (max a b)).2 v h1

theorem argmaxList_lt_length (l : List ℚ) (hl : l ≠ []) :
    argmaxList l < l.length :=
  List.indexOf_lt_length.mpr (listMax_mem l hl)

theorem getD_argmaxList (l : List ℚ) (hl : l ≠ []) :
    l.getD (argmaxList l) 0 = listMax l := by
  have h := List.indexOf_lt_length.mpr (listMax_mem l hl)
  unfold argmaxList
  rw [List.getD_eq_getElem l 0 h]
  exact List.getElem_indexOf h

/-! ## Pose modality: `src/backend/analysis/tennis_analyzer.py`

Data model of `SwingPhase`, `SwingMetrics` and the phase map
(`Dict[SwingPhase, Tuple[int, int]]`). -/

/-- `SwingPhase` enum of `tennis_analyzer.py`. -/
inductive SwingPhase where
  | ready
  | preparation
  | backswing
  | forwardSwing
  | contact
  | followThrough
deriving DecidableEq, Repr, Fintype

/-- All six phases (used to express quantification over the enum as a
decidable list search). -/
def allPhases : List SwingPhase :=
  [.ready, .preparation, .backswing, .forwardSwing, .contact, .followThrough]

theorem allPhases_complete : ∀ p : SwingPhase, p ∈ allPhases := by
  intro p; cases p <;> simp [allPhases]

/-- `SwingMetrics` dataclass: per-frame metrics.  Angles are `Optional[float]`
in the source (`None` = undefined), modelled by `Option ℚ`. -/
structure SwingMetrics where
  frameIndex : ℕ
  phase : SwingPhase
  racketElbowAngle : Option ℚ := none
  racketShoulderAngle : Option ℚ := none
  frontKneeAngle : Option ℚ := none
  backKneeAngle : Option ℚ := none
  torsoRotation : Option ℚ := none
  hipRotation : Option ℚ := none
  shoulderTilt : Option ℚ := none
  weightDistribution : Option ℚ := none
deriving DecidableEq, Repr

/-- The phase map `phases : Dict[SwingPhase, Tuple[int, int]]`. -/
def PhaseMap : Type := SwingPhase → Option (ℕ × ℕ)

/-- The contiguous runs of equal per-frame phase classification, in order:
the `(current_phase, phase_start, i - 1)` triples that the loop of
`TennisSwingAnalyzer._detect_phase_boundaries` assigns into its dict, in
assignment order (the trailing run is closed with `len(metrics) - 1`).
Arguments: remaining frames, current index `i`, current phase, run start. -/
def runsAux : List SwingMetrics → ℕ → SwingPhase → ℕ →
    List (SwingPhase × ℕ × ℕ)
  | [], i, c, s => [(c, s, i - 1)]
  | m :: rest, i, c, s =>
    if m.phase = c then runsAux rest (i + 1) c s
    else (c, s, i - 1) :: runsAux rest (i + 1) m.phase i

/-- Run decomposition of a metrics series (empty on the empty series,
matching the loop's `current_phase is None` initial state). -/
def runs : List SwingMetrics → List (SwingPhase × ℕ × ℕ)
  | [] => []
  | m :: rest => runsAux rest 1 m.phase 0

/-- Last assignment wins: the Python dict built by successive
`phases[current_phase] = (phase_start, i - 1)` assignments. -/
def lastAssoc (l : List (SwingPhase × ℕ × ℕ)) (p : SwingPhase) :
    Option (ℕ × ℕ) :=
  l.foldl (fun acc r => if r.1 = p then some r.2 else acc) none

/-- `TennisSwingAnalyzer._detect_phase_boundaries`: collapse the per-frame
classifications into a dict `phase -> (start_frame, end_frame)`.  A phase
that recurs in separate runs keeps only its last run (dict overwrite). -/
def detectPhaseBoundaries (metrics : List SwingMetrics) : PhaseMap :=
  lastAssoc (runs metrics)

/-- `chainedB a n l`: the intervals of `l` start at `a`, are nonempty,
contiguous (each next start = previous end + 1, hence ordered by start and
non-overlapping), and end exactly at `n - 1`. -/
def chainedB : ℕ → ℕ → List (SwingPhase × ℕ × ℕ) → Bool
  | a, n, [] => a = n
  | a, n, (_, s, e) :: rest => s = a && s ≤ e && chainedB (e + 1) n rest

/-- Whether an optional phase interval contains frame `j`. -/
def optContains (o : Option (ℕ × ℕ)) (j : ℕ) : Bool :=
  match o with
  | some I => I.1 ≤ j && j ≤ I.2
  | none => false

/-- Number of phases of the map whose interval contains frame `j`. -/
def mapCount (phases : PhaseMap) (j : ℕ) : ℕ :=
  (allPhases.filter fun p => optContains (phases p) j).length

/-- `TennisSwingAnalyzer._find_contact_frame`: midpoint of the CONTACT
interval (integer floor division), `None` if no CONTACT phase exists. -/
def findContactFrame (phases : PhaseMap) : Option ℕ :=
  match phases .contact with
  | some (s, e) => some ((s + e) / 2)
  | none => none

/-- The frame index actually used for `contact_metrics` in
`TennisSwingAnalyzer.analyze_swing`:
`metrics_per_frame[contact_idx] if contact_idx else metrics_per_frame[len(metrics_per_frame)//2]`.
Note the Python truthiness test `if contact_idx`: it falls back to the
middle frame both when `contact_idx` is `None` and when it is `0`. -/
def contactIdxPick (phases : PhaseMap) (n : ℕ) : ℕ :=
  match findContactFrame phases with
  | some i => if i ≠ 0 then i else n / 2
  | none => n / 2

/-! ### Scoring (`TennisSwingAnalyzer._calculate_score`)

`IDEAL_RANGES`: contact elbow `(150, 170)`, contact knee `(140, 160)`,
torso rotation `(45, 90)`. -/

/-- Distance from a value to the nearest edge of a closed range
(`0` inside the range). -/
def distToRange (v lo hi : ℚ) : ℚ :=
  if v < lo then lo - v else if hi < v then v - hi else 0

/-- Elbow contribution of `_calculate_score` (max 15 points).
`if contact.racket_elbow_angle:` is a truthiness test: `None` and `0.0`
both skip the block (contributing 0). -/
def elbowAward (a : Option ℚ) : ℚ :=
  match a with
  | none => 0
  | some v =>
    if v = 0 then 0
    else if 150 ≤ v ∧ v ≤ 170 then 15
    else max 0 (15 - min |v - 150| |v - 170| * (1 / 2))

/-- Knee contribution of `_calculate_score` (max 15 points), same
truthiness behaviour as the elbow. -/
def kneeAward (a : Option ℚ) : ℚ :=
  match a with
  | none => 0
  | some v =>
    if v = 0 then 0
    else if 140 ≤ v ∧ v ≤ 160 then 15
    else max 0 (15 - min |v - 140| |v - 160| * (1 / 2))

/-- Torso contribution of `_calculate_score` (max 20 points); outside the
ideal range the deviation is measured from the range midpoint
`(45 + 90) / 2 = 67.5`. -/
def torsoAward (v : ℚ) : ℚ :=
  if 45 ≤ v ∧ v ≤ 90 then 20
  else max 0 (20 - |v - (45 + 90) / 2| * (3 / 10))

/-- `max((m.torso_rotation or 0) for m in metrics)`; guarded by
nonemptiness in the callers (`max` of an empty generator raises). -/
def maxTorsoOf (metrics : List SwingMetrics) : ℚ :=
  listMax (metrics.map fun m => m.torsoRotation.getD 0)

/-- The contact block of `_calculate_score` (`if contact_idx:` followed by
the elbow and knee checks): the truthiness test skips the block — a `0`
contribution — when `contact_idx` is `None` *or* `0`; otherwise
`metrics[contact_idx]` is read (`none` models the `IndexError` when the
index is out of range) and the elbow and knee awards are added. -/
def contactPartOf (metrics : List SwingMetrics) (phases : PhaseMap) :
    Option ℚ :=
  match findContactFrame phases with
  | some i =>
    if i = 0 then some 0
    else
      match metrics.get? i with
      | none => none
      | some c => some (elbowAward c.racketElbowAngle +
          kneeAward c.frontKneeAngle)
  | none => some 0

/-- `TennisSwingAnalyzer._calculate_score`.  `none` models a raised
exception: `metrics[contact_idx]` out of range (`IndexError`) or `max`
over an empty series (`ValueError`). -/
def calculateScore (metrics : List SwingMetrics) (phases : PhaseMap) :
    Option ℚ :=
  match contactPartOf metrics phases with
  | none => none
  | some cp =>
    if metrics.isEmpty then none
    else some (min 100 (max 0 (50 + cp + torsoAward (maxTorsoOf metrics))))

/-- The headline fields of `TennisSwingAnalyzer.analyze_swing`
(lines 139–165), as a function of the per-frame metrics:
`(max_torso_rotation, contact_elbow_angle, contact_knee_angle)`.
`x or 0` on an `Optional[float]` yields `0` for both `None` and `0.0`,
i.e. `Option.getD 0` on values that are never negative.  `none` models
the exceptions raised on an empty series (`max` of an empty generator /
indexing an empty list). -/
def headlineOf (metrics : List SwingMetrics) : Option (ℚ × ℚ × ℚ) :=
  if metrics.isEmpty then none
  else
    let phases := detectPhaseBoundaries metrics
    let ci := contactIdxPick phases metrics.length
    match metrics.get? ci with
    | none => none
    | some cm =>
      some (maxTorsoOf metrics, cm.racketElbowAngle.getD 0,
        cm.frontKneeAngle.getD 0)

/-! ### Torso rotation (`TennisSwingAnalyzer._calculate_torso_rotation`) -/

/-- Modelled from the spec: `Keypoint` is "a named 3D body landmark —
position (x, y, z in normalized video-frame coordinates) ... and a
visibility/confidence score in [0,1]" produced by the external pose
estimator (`pose/pose_estimator.py` is not part of the analysed sources).
Only `x` and `y` are read by the torso-rotation code (2D projection). -/
structure Keypoint where
  x : ℚ
  y : ℚ
  z : ℚ := 0
  visibility : ℚ := 1
deriving DecidableEq, Repr

/-- Modelled from the spec: the result of the four
`pose_result.get_keypoint(...)` calls made by
`_calculate_torso_rotation`; `get_keypoint` returns the keypoint or
`None` when it is missing. -/
structure TorsoKeypoints where
  leftShoulder : Option Keypoint
  rightShoulder : Option Keypoint
  leftHip : Option Keypoint
  rightHip : Option Keypoint
deriving DecidableEq, Repr

/-- The epsilon of the degenerate-norm guard (`1e-8`). -/
def torsoEps : ℚ := 1 / 100000000

/-- `np.dot(shoulder_vec, hip_vec)` of `_calculate_torso_rotation`
(junk value 0 when a keypoint is missing — the source returns `None`
before reading it; only used under `torsoDefined`). -/
def torsoDot (f : TorsoKeypoints) : ℚ :=
  match f.leftShoulder, f.rightShoulder, f.leftHip, f.rightHip with
  | some ls, some rs, some lh, some rh =>
    (rs.x - ls.x) * (rh.x - lh.x) + (rs.y - ls.y) * (rh.y - lh.y)
  | _, _, _, _ => 0

/-- Squared norm of the shoulder vector (`norm_s ** 2`). -/
def torsoNormSqS (f : TorsoKeypoints) : ℚ :=
  match f.leftShoulder, f.rightShoulder with
  | some ls, some rs => (rs.x - ls.x) ^ 2 + (rs.y - ls.y) ^ 2
  | _, _ => 0

/-- Squared norm of the hip vector (`norm_h ** 2`). -/
def torsoNormSqH (f : TorsoKeypoints) : ℚ :=
  match f.leftHip, f.rightHip with
  | some lh, some rh => (rh.x - lh.x) ^ 2 + (rh.y - lh.y) ^ 2
  | _, _ => 0

/-- Computable characterization of when `_calculate_torso_rotation`
returns a value: all four keypoints present and both squared vector norms
at least `(1e-8)^2` (equivalent to the source's `norm < 1e-8` test on the
Euclidean norm, since the norm is nonnegative). -/
def torsoDefined (f : TorsoKeypoints) : Bool :=
  match f.leftShoulder, f.rightShoulder, f.leftHip, f.rightHip with
  | some _, some _, some _, some _ =>
    if torsoNormSqS f < torsoEps ^ 2 ∨ torsoNormSqH f < torsoEps ^ 2
    then false else true
  | _, _, _, _ => false

/-- The cosine argument passed to `np.arccos` after
`np.clip(dot / (norm_s * norm_h), -1.0, 1.0)`. -/
noncomputable def torsoClippedCos (f : TorsoKeypoints) : ℝ :=
  min (max ((torsoDot f : ℝ) /
    (Real.sqrt (torsoNormSqS f) * Real.sqrt (torsoNormSqH f))) (-1)) 1

/-- `TennisSwingAnalyzer._calculate_torso_rotation`: `None` when a
keypoint is missing (`if not all([...])`) or a vector norm is below
`1e-8`; otherwise `np.degrees(np.arccos(np.clip(dot/(norm_s*norm_h), -1, 1)))`. -/
noncomputable def torsoRotationOf (f : TorsoKeypoints) : Option ℝ :=
  match f.leftShoulder, f.rightShoulder, f.leftHip, f.rightHip with
  | some _, some _, some _, some _ =>
    if Real.sqrt (torsoNormSqS f) < (torsoEps : ℝ) ∨
        Real.sqrt (torsoNormSqH f) < (torsoEps : ℝ) then none
    else some (Real.arccos (torsoClippedCos f) * 180 / Real.pi)
  | _, _, _, _ => none

/-! ## IMU modality: `src/swing_analyzer.py`

Thresholds of the source: `MIN_PEAK_GYRO_RAD = 5.0`, prominence floor
`5.0 * 0.3 = 1.5`, `distance = int(SAMPLE_RATE_HZ * 0.05) = 20`, boundary
threshold `0.10` of the peak value, minimum sample count `10`, smoothing
guard `len(signal) < 15`. -/

/-- End of a plateau: first index `j ≥ start` with `j ≥ imax` or
`x[j] ≠ v` (the inner `while i_ahead < i_max and x[i_ahead] == x[i]`
loop of scipy's `_local_maxima_1d`).  Fuel-driven recursion; the fuel is
always at least `imax` at the call sites. -/
def plateauEnd (f : ℕ → ℚ) (imax : ℕ) (v : ℚ) : ℕ → ℕ → ℕ
  | j, 0 => j
  | j, fuel + 1 => if j < imax ∧ f j = v then plateauEnd f imax v (j + 1) fuel else j

/-- Main loop of scipy's `_local_maxima_1d` (called by
`scipy.signal.find_peaks`, an external library: translated from its
documented algorithm): scan `i` from `1` to `i_max - 1`; on a strict rise
`x[i-1] < x[i]`, find the plateau end `i_ahead`; if the signal then falls
(`x[i_ahead] < x[i]`) record the plateau midpoint `(i + i_ahead - 1) / 2`
and resume at `i_ahead + 1`, else resume at `i + 1`. -/
def localMaxAux (f : ℕ → ℚ) (imax : ℕ) : ℕ → ℕ → List ℕ
  | _, 0 => []
  | i, fuel + 1 =>
    if i < imax then
      if f (i - 1) < f i then
        let ia := plateauEnd f imax (f i) (i + 1) imax
        if f ia < f i then
          (i + (ia - 1)) / 2 :: localMaxAux f imax (ia + 1) fuel
        else localMaxAux f imax (i + 1) fuel
      else localMaxAux f imax (i + 1) fuel
    else []

/-- Indices of the interior local maxima of a signal (plateau midpoints),
as found by `scipy.signal.find_peaks`. -/
def localMaxima (x : List ℚ) : List ℕ :=
  localMaxAux (xi x) (x.length - 1) 1 (x.length + 1)

/-- One step of scipy's `_select_by_peak_distance` removal: when peak
(position) `j` is still kept, discard every other peak whose index is
closer than `d` to `peaks[j]`.  (In scipy the removal walks outward from
`j` and stops at the first far-enough neighbour; since `peaks` is sorted
ascending the removed set is exactly all peaks closer than `d`.) -/
def distStep (peaks : List ℕ) (d : ℕ) (keep : List Bool) (j : ℕ) :
    List Bool :=
  if keep.getD j false then
    (List.range keep.length).map fun k =>
      if k = j then true
      else if (if peaks.getD k 0 ≤ peaks.getD j 0 then
          peaks.getD j 0 - peaks.getD k 0
          else peaks.getD k 0 - peaks.getD j 0) < d then false
      else keep.getD k false
  else keep

/-- Insertion into a sorted list (ascending by `le`). -/
def insertBy (le : ℕ → ℕ → Bool) (a : ℕ) : List ℕ → List ℕ
  | [] => [a]
  | b :: r => if le a b then a :: b :: r else b :: insertBy le a r

/-- Insertion sort, ascending by `le` (models `np.argsort`, whose order on
equal keys is unspecified). -/
def sortBy (le : ℕ → ℕ → Bool) : List ℕ → List ℕ
  | [] => []
  | a :: r => insertBy le a (sortBy le r)

/-- scipy `_select_by_peak_distance`: process peaks from highest to lowest
priority (signal height; `np.argsort` order for ties), discarding
neighbours closer than `distance`. -/
def selectByPeakDistance (x : List ℚ) (peaks : List ℕ) (d : ℕ) :
    List Bool :=
  let order := sortBy
    (fun i j => xi x (peaks.getD i 0) ≤ xi x (peaks.getD j 0))
    (List.range peaks.length)
  order.reverse.foldl (distStep peaks d) (List.replicate peaks.length true)

/-- Filter a peak list by the keep flags of the distance selection. -/
def distanceFilter (x : List ℚ) (peaks : List ℕ) (d : ℕ) : List ℕ :=
  let keep := selectByPeakDistance x peaks d
  (List.range peaks.length).filterMap fun i =>
    if keep.getD i false then peaks.get? i else none

/-- Left arm of scipy's `_peak_prominences` base search: starting at
index `i` with running minimum `acc`, walk left while `x[i] ≤ vp`
(the peak height), tracking the minimum. -/
def promLeftMin (f : ℕ → ℚ) (vp : ℚ) : ℕ → ℚ → ℚ
  | 0, acc => if f 0 ≤ vp then min acc (f 0) else acc
  | i + 1, acc =>
    if f (i + 1) ≤ vp then promLeftMin f vp i (min acc (f (i + 1))) else acc

/-- Right arm of the base search: walk right from `i` while in range
(fuel counts the remaining indices) and `x[i] ≤ vp`. -/
def promRightMin (f : ℕ → ℚ) (vp : ℚ) : ℕ → ℕ → ℚ → ℚ
  | _, 0, acc => acc
  | i, fuel + 1, acc =>
    if f i ≤ vp then promRightMin f vp (i + 1) fuel (min acc (f i)) else acc

/-- scipy `_peak_prominences` (no `wlen`): peak height minus the larger of
the two base minima. -/
def prominence (x : List ℚ) (p : ℕ) : ℚ :=
  let vp := xi x p
  let leftMin := promLeftMin (xi x) vp p vp
  let rightMin := promRightMin (xi x) vp p (x.length - p) vp
  vp - max leftMin rightMin

/-- `scipy.signal.find_peaks(x, height=5.0, prominence=1.5, distance=20)`
as called by `_find_phase_boundaries`: local maxima, then the height
floor, then distance-based thinning, then the prominence floor (the order
in which `find_peaks` applies its conditions). -/
def findPeaks (x : List ℚ) : List ℕ :=
  let lm := localMaxima x
  let afterHeight := lm.filter fun p => 5 ≤ xi x p
  let afterDist := distanceFilter x afterHeight 20
  afterDist.filter fun p => 3 / 2 ≤ prominence x p

/-- Backward walk of `_find_phase_boundaries`
(`for i in range(best - 1, -1, -1)`): first index at or below `b` whose
signal value is below the threshold, scanning downward; `none` if none. -/
def backFirst (f : ℕ → ℚ) (thresh : ℚ) : ℕ → Option ℕ
  | 0 => if f 0 < thresh then some 0 else none
  | i + 1 => if f (i + 1) < thresh then some (i + 1) else backFirst f thresh i

/-- Forward walk (`for i in range(best + 1, len(...))`): first index
`≥ start` (among the next `cnt` indices) whose signal value is below the
threshold; `none` if none. -/
def fwdFirst (f : ℕ → ℚ) (thresh : ℚ) : ℕ → ℕ → Option ℕ
  | _, 0 => none
  | i, cnt + 1 => if f i < thresh then some i else fwdFirst f thresh (i + 1) cnt

/-- The boundary record returned by `_find_phase_boundaries`. -/
structure Boundaries where
  accelStartIdx : ℕ
  peakIdx : ℕ
  decelEndIdx : ℕ
  accelStartMs : ℚ
  peakMs : ℚ
  decelEndMs : ℚ
deriving DecidableEq, Repr

/-- `_find_phase_boundaries(t_ms, gyro_mag_smooth)`: find the qualifying
peaks, return `None` when there is none; otherwise pick the tallest
(`peaks[np.argmax(props["peak_heights"])]`), walk backward/forward to the
first samples below 10% of the peak value (defaults `0` / `len - 1` when
the walk hits the series boundary).  The derivative computed by the
source on its first two lines is dead code for the returned value and is
not modelled. -/
def findPhaseBoundaries (tms x : List ℚ) : Option Boundaries :=
  let peaks := findPeaks x
  if peaks.isEmpty then none
  else
    let heights := peaks.map (xi x)
    let best := peaks.getD (argmaxList heights) 0
    let thresh := xi x best * (10 / 100)
    let a := match best with
      | 0 => 0
      | b + 1 => (backFirst (xi x) thresh b).getD 0
    let d := (fwdFirst (xi x) thresh (best + 1)
      (x.length - (best + 1))).getD (x.length - 1)
    some ⟨a, best, d, xi tms a, xi tms best, xi tms d⟩

/-- One IMU sensor reading (`{"t": ms, "gyro": {...}, "accel": {...}}`). -/
structure ImuSample where
  t : ℚ
  gyro : ℚ × ℚ × ℚ
  accel : ℚ × ℚ × ℚ
deriving DecidableEq, Repr

/-- The three return shapes of `analyze_swing`:
`{"error": "not enough samples", "phases": None}`;
`{"error": "no swing detected (gyro peak below threshold)", "phases": None,
"peak_gyro_rad_s": ..., "t_ms": ..., "gyro_mag": ..., "accel_mag": ...,
"raw_gyro_mag": ...}`; and the full result. -/
inductive ImuResult where
  | tooFewSamples
  | noSwing (peakGyroRadS : ℚ) (tMs gyroMag accelMag rawGyroMag : List ℚ)
  | ok (b : Boundaries) (peakGyroRadS peakAccel swingDurMs : ℚ)
      (tMs gyroMag accelMag rawGyroMag : List ℚ)
deriving DecidableEq, Repr

/-- `_smooth`: return the input unchanged when it is shorter than 15
samples (`sosfiltfilt` needs padding), otherwise apply the zero-phase
Butterworth filter.  The filter itself (`filt`) is a parameter: its
scipy implementation and irrational float coefficients live outside the
repository; see `sosfiltfiltModel` for its structural model. -/
def smoothFn (filt : List ℚ → List ℚ) (s : List ℚ) : List ℚ :=
  if s.length < 15 then s else filt s

/-- `analyze_swing(samples)`.  `norm3` is a parameter standing for
`np.linalg.norm` on one 3-vector (external library; its value is
irrational in general — on an axis-aligned vector it equals the absolute
value of the nonzero coordinate, so every rational magnitude series is
realized).  `filt` stands for `sosfiltfilt` as in `smoothFn`. -/
def analyzeSwing (norm3 : ℚ × ℚ × ℚ → ℚ) (filt : List ℚ → List ℚ)
    (samples : List ImuSample) : ImuResult :=
  if samples.length < 10 then .tooFewSamples
  else
    let t := samples.map (·.t)
    let gyroMagRaw := samples.map fun s => norm3 s.gyro
    let accelMagRaw := samples.map fun s => norm3 s.accel
    let gyroMag := smoothFn filt gyroMagRaw
    let accelMag := smoothFn filt accelMagRaw
    match findPhaseBoundaries t gyroMag with
    | none => .noSwing (listMax gyroMag) t gyroMag accelMag gyroMagRaw
    | some b =>
      .ok b (listMax gyroMag) (listMax accelMag)
        (b.decelEndMs - b.accelStartMs) t gyroMag accelMag gyroMagRaw

/-! ## Signal conditioners

Structural models of the two library smoothers the repository calls.
Their numeric kernels (Butterworth coefficients, steady-state initial
conditions, Savitzky–Golay least-squares kernels and edge fits) are
irrational floats computed inside scipy and are taken as parameters; the
surrounding structure (padding, the biquad recurrence, forward–backward
application, slicing, edge replacement) is the library's documented
algorithm.  The spec's SignalConditioner contract only constrains this
structure: same output length, input returned unchanged when too short. -/

/-- One step of a direct-form-II-transposed biquad
(`y = b0*x + z1; z1' = b1*x + z2 - a1*y; z2' = b2*x - a2*y`). -/
def biquadStep (b0 b1 b2 a1 a2 : ℚ) (st : ℚ × ℚ) (v : ℚ) : (ℚ × ℚ) × ℚ :=
  let y := b0 * v + st.1
  ((b1 * v + st.2 - a1 * y, b2 * v - a2 * y), y)

/-- `scipy.signal.sosfilt` for a single second-order section with initial
state `st`. -/
def sosfiltRun (b0 b1 b2 a1 a2 : ℚ) (st : ℚ × ℚ) : List ℚ → List ℚ
  | [] => []
  | v :: r =>
    let s := biquadStep b0 b1 b2 a1 a2 st v
    s.2 :: sosfiltRun b0 b1 b2 a1 a2 s.1 r

/-- `scipy.signal.odd_ext(x, k)`: reflect `k` samples about each end
point (`2*x[0] - x[k..1]` on the left, `2*x[-1] - x[n-2..n-1-k]` on the
right). -/
def oddExt (x : List ℚ) (k : ℕ) : List ℚ :=
  let n := x.length
  ((List.range k).map fun i => 2 * xi x 0 - xi x (k - i)) ++ x ++
    ((List.range k).map fun i => 2 * xi x (n - 1) - xi x (n - 2 - i))

/-- `scipy.signal.sosfiltfilt(sos, x)` for the one second-order section
produced by `butter(2, ...)`: pad length `edge = 3 * ntaps = 9`
(`ntaps = 2 * n_sections + 1 = 3`), odd extension, forward pass with
steady-state initial conditions `zi` scaled by the first sample, backward
pass with `zi` scaled by the last forward output, then slice
`y[edge:-edge]`.  `b0..a2` are the section coefficients and `(zi1, zi2)`
the steady state of `sosfilt_zi` — all parameters. -/
def sosfiltfiltModel (b0 b1 b2 a1 a2 zi1 zi2 : ℚ) (x : List ℚ) : List ℚ :=
  let k : ℕ := 9
  let ext := oddExt x k
  let x0 := ext.headD 0
  let y1 := sosfiltRun b0 b1 b2 a1 a2 (zi1 * x0, zi2 * x0) ext
  let y0 := y1.reverse.headD 0
  let y2 := sosfiltRun b0 b1 b2 a1 a2 (zi1 * y0, zi2 * y0) y1.reverse
  ((y2.reverse).drop k).take x.length

/-- A concrete signal conditioner satisfying the spec's SignalConditioner
contract (length-preserving local smoothing, no phase shift): window-3
moving average with the end points copied.  Used to instantiate the
`filt` parameter at concrete inputs. -/
def movingAvg3 (l : List ℚ) : List ℚ :=
  (List.range l.length).map fun i =>
    if i = 0 ∨ i = l.length - 1 then xi l i
    else (xi l (i - 1) + xi l i + xi l (i + 1)) / 3

/-- Structural model of `scipy.signal.savgol_filter(x, w, polyorder)` with
the default `mode='interp'` for odd `w ≤ n`: correlation of the interior
with the least-squares kernel, with the first and last `w / 2` outputs
replaced by polynomial edge fits.  `kernel` (the `w` filter coefficients)
and `edgeFit` (the least-squares polynomial edge values) are parameters. -/
def savgolModel (kernel : List ℚ) (edgeFit : List ℚ → ℕ → ℚ) (w : ℕ)
    (x : List ℚ) : List ℚ :=
  let h := w / 2
  (List.range x.length).map fun i =>
    if i < h ∨ x.length ≤ i + h then edgeFit x i
    else ((List.range w).map fun j => kernel.getD j 0 * xi x (i - h + j)).sum

/-- `smooth_array(arr, window, polyorder)` of `src/export_metrics.py`:
return the input unchanged when shorter than `window`; bump an even
`window` to the next odd value; then apply the Savitzky–Golay filter.
`none` models the `ValueError` scipy raises when the (bumped) window
exceeds the input length. -/
def smoothArray (kernel : List ℚ) (edgeFit : List ℚ → ℕ → ℚ) (w : ℕ)
    (x : List ℚ) : Option (List ℚ) :=
  if x.length < w then some x
  else
    let w' := if w % 2 = 0 then w + 1 else w
    if x.length < w' then none
    else some (savgolModel kernel edgeFit w' x)

/-! ## Lemmas: pose-modality phase runs -/

theorem runsAux_chained : ∀ (rest : List SwingMetrics) (i : ℕ)
    (c : SwingPhase) (s : ℕ), s < i →
    chainedB s (i + rest.length) (runsAux rest i c s) = true := by
  intro rest
  induction rest with
  | nil =>
    intro i c s hsi
    have hi : 1 ≤ i := Nat.one_le_iff_ne_zero.mpr (by omega)
    simp only [runsAux, chainedB, List.length_nil, Nat.add_zero]
    have h1 : i - 1 + 1 = i := by omega
    rw [h1]
    simp [chainedB]
    omega
  | cons m rest ih =>
    intro i c s hsi
    simp only [runsAux, List.length_cons]
    by_cases hm : m.phase = c
    · rw [if_pos hm]
      have := ih (i + 1) c s (by omega)
      have harith : i + (rest.length + 1) = i + 1 + rest.length := by omega
      rw [harith]
      exact this
    · rw [if_neg hm]
      simp only [chainedB]
      have hi : 1 ≤ i := by omega
      have h1 : i - 1 + 1 = i := by omega
      rw [h1]
      have := ih (i + 1) m.phase i (by omega)
      have harith : i + (rest.length + 1) = i + 1 + rest.length := by omega
      rw [harith, this]
      simp
      omega

theorem runs_chained (metrics : List SwingMetrics) :
    chainedB 0 metrics.length (runs metrics) = true := by
  match metrics with
  | [] => simp [runs, chainedB]
  | m :: rest =>
    have := runsAux_chained rest 1 m.phase 0 (by omega)
    simpa [runs, List.length_cons, Nat.add_comm] using this

theorem chained_le : ∀ (l : List (SwingPhase × ℕ × ℕ)) (a n : ℕ),
    chainedB a n l = true → a ≤ n := by
  intro l
  induction l with
  | nil => intro a n h; simp [chainedB] at h; omega
  | cons r rest ih =>
    intro a n h
    obtain ⟨p, s, e⟩ := r
    simp only [chainedB, Bool.and_eq_true, decide_eq_true_eq] at h
    have := ih (e + 1) n h.2
    omega

theorem chained_mem : ∀ (l : List (SwingPhase × ℕ × ℕ)) (a n : ℕ)
    (r : SwingPhase × ℕ × ℕ), chainedB a n l = true → r ∈ l →
    a ≤ r.2.1 ∧ r.2.1 ≤ r.2.2 ∧ r.2.2 < n := by
  intro l
  induction l with
  | nil => intro a n r _ hr; exact absurd hr (List.not_mem_nil r)
  | cons hd rest ih =>
    intro a n r hch hr
    obtain ⟨p, s, e⟩ := hd
    simp only [chainedB, Bool.and_eq_true, decide_eq_true_eq] at hch
    obtain ⟨⟨hs, hse⟩, hrest⟩ := hch
    rcases List.mem_cons.mp hr with h | h
    · subst h
      have := chained_le rest (e + 1) n hrest
      simp only
      omega
    · have := ih (e + 1) n r hrest h
      omega

/-- In a chained interval list, each in-range index lies in exactly one
interval. -/
theorem chained_unique : ∀ (l : List (SwingPhase × ℕ × ℕ)) (a n j : ℕ),
    chainedB a n l = true → a ≤ j → j < n →
    ∃ r ∈ l, (r.2.1 ≤ j ∧ j ≤ r.2.2) ∧
      ∀ r' ∈ l, r'.2.1 ≤ j → j ≤ r'.2.2 → r' = r := by
  intro l
  induction l with
  | nil =>
    intro a n j h haj hjn
    simp [chainedB] at h
    omega
  | cons hd rest ih =>
    intro a n j hch haj hjn
    obtain ⟨p, s, e⟩ := hd
    simp only [chainedB, Bool.and_eq_true, decide_eq_true_eq] at hch
    obtain ⟨⟨hs, hse⟩, hrest⟩ := hch
    by_cases hje : j ≤ e
    · refine ⟨(p, s, e), List.mem_cons_self _ _, ⟨show s ≤ j by omega, hje⟩, ?_⟩
      intro r' hr' h1 h2
      rcases List.mem_cons.mp hr' with h | h
      · exact h
      · exfalso
        have := chained_mem rest (e + 1) n r' hrest h
        omega
    · obtain ⟨r, hrmem, hrj, huniq⟩ := ih (e + 1) n j hrest (by omega) hjn
      refine ⟨r, List.mem_cons_of_mem _ hrmem, hrj, ?_⟩
      intro r' hr' h1 h2
      rcases List.mem_cons.mp hr' with h | h
      · subst h; exact absurd h2 hje
      · exact huniq r' h h1 h2

/-! ## Lemmas: the phase dict (`lastAssoc`) -/

theorem lastAssoc_foldl_mem (p : SwingPhase) (v : ℕ × ℕ) :
    ∀ (l : List (SwingPhase × ℕ × ℕ)) (acc : Option (ℕ × ℕ)),
    l.foldl (fun acc r => if r.1 = p then some r.2 else acc) acc = some v →
    (p, v) ∈ l ∨ acc = some v := by
  intro l
  induction l with
  | nil => intro acc h; exact Or.inr h
  | cons r rest ih =>
    intro acc h
    simp only [List.foldl] at h
    rcases ih _ h with h1 | h1
    · exact Or.inl (List.mem_cons_of_mem r h1)
    · by_cases hr : r.1 = p
      · rw [if_pos hr] at h1
        left
        have : r = (p, v) := by
          obtain ⟨r1, r2⟩ := r
          simp only at hr
          simp only [Option.some.injEq] at h1
          rw [hr, h1]
        rw [← this]
        exact List.mem_cons_self r rest
      · rw [if_neg hr] at h1
        exact Or.inr h1

theorem lastAssoc_mem {l : List (SwingPhase × ℕ × ℕ)} {p : SwingPhase}
    {v : ℕ × ℕ} (h : lastAssoc l p = some v) : (p, v) ∈ l := by
  rcases lastAssoc_foldl_mem p v l none h with h1 | h1
  · exact h1
  · exact absurd h1 (by simp)

theorem lastAssoc_foldl_skip (p : SwingPhase) :
    ∀ (l : List (SwingPhase × ℕ × ℕ)) (acc : Option (ℕ × ℕ)),
    p ∉ l.map Prod.fst →
    l.foldl (fun acc r => if r.1 = p then some r.2 else acc) acc = acc := by
  intro l
  induction l with
  | nil => intro acc _; rfl
  | cons r rest ih =>
    intro acc hp
    simp only [List.map_cons, List.mem_cons, not_or] at hp
    have hr : ¬(r.1 = p) := fun h => hp.1 h.symm
    rw [List.foldl_cons, if_neg hr]
    exact ih _ hp.2

/-- With pairwise-distinct keys, the dict built by last-wins insertion
looks up exactly the association-list entries. -/
theorem lastAssoc_nodup_iff {l : List (SwingPhase × ℕ × ℕ)}
    (hnd : (l.map Prod.fst).Nodup) (p : SwingPhase) (v : ℕ × ℕ) :
    lastAssoc l p = some v ↔ (p, v) ∈ l := by
  constructor
  · exact lastAssoc_mem
  · intro hmem
    induction l with
    | nil => exact absurd hmem (List.not_mem_nil _)
    | cons r rest ih =>
      simp only [List.map_cons, List.nodup_cons] at hnd
      rcases List.mem_cons.mp hmem with h | h
      · subst h
        simp only [lastAssoc, List.foldl, if_pos rfl]
        exact lastAssoc_foldl_skip p rest (some v) hnd.1
      · have hrp : ¬(r.1 = p) := by
          intro he
          apply hnd.1
          rw [he]
          exact List.mem_map.mpr ⟨(p, v), h, rfl⟩
        have := ih hnd.2 h
        simpa [lastAssoc, List.foldl_cons, if_neg hrp] using this

theorem filter_singleton_length (p0 : SwingPhase) :
    ∀ (l : List SwingPhase) (pred : SwingPhase → Bool),
    (∀ p ∈ l, pred p = true ↔ p = p0) → l.Nodup → p0 ∈ l →
    (l.filter pred).length = 1 := by
  intro l
  induction l with
  | nil => intro pred _ _ h; exact absurd h (List.not_mem_nil _)
  | cons a rest ih =>
    intro pred hpred hnd hmem
    simp only [List.nodup_cons] at hnd
    by_cases ha : a = p0
    · subst ha
      have h1 : pred a = true := (hpred a (List.mem_cons_self _ _)).mpr rfl
      have h2 : rest.filter pred = [] := by
        rw [List.filter_eq_nil_iff]
        intro b hb hbp
        exact hnd.1 (((hpred b (List.mem_cons_of_mem a hb)).mp hbp) ▸ hb)
      simp [List.filter_cons, h1, h2]
    · have h1 : pred a = false := by
        rcases Bool.eq_false_or_eq_true (pred a) with h | h
        · exact absurd ((hpred a (List.mem_cons_self _ _)).mp h) ha
        · exact h
      have hmem' : p0 ∈ rest := by
        rcases List.mem_cons.mp hmem with h | h
        · exact absurd h.symm ha
        · exact h
      have := ih pred (fun p hp => hpred p (List.mem_cons_of_mem a hp))
        hnd.2 hmem'
      simpa [List.filter_cons, h1] using this

theorem allPhases_nodup : allPhases.Nodup := by decide

/-! ## Lemmas: IMU peak detection -/

theorem plateauEnd_ge (f : ℕ → ℚ) (imax : ℕ) (v : ℚ) :
    ∀ (fuel j : ℕ), j ≤ plateauEnd f imax v j fuel := by
  intro fuel
  induction fuel with
  | zero => intro j; simp [plateauEnd]
  | succ fuel ih =>
    intro j
    simp only [plateauEnd]
    split
    · exact le_trans (Nat.le_succ j) (ih (j + 1))
    · exact le_refl j

theorem plateauEnd_le (f : ℕ → ℚ) (imax : ℕ) (v : ℚ) :
    ∀ (fuel j : ℕ), j ≤ imax → plateauEnd f imax v j fuel ≤ imax := by
  intro fuel
  induction fuel with
  | zero => intro j h; simpa [plateauEnd] using h
  | succ fuel ih =>
    intro j h
    simp only [plateauEnd]
    split
    · next hc => exact ih (j + 1) hc.1
    · exact h

theorem localMaxAux_bounds (f : ℕ → ℚ) (imax : ℕ) :
    ∀ (fuel i : ℕ), 1 ≤ i →
    ∀ p ∈ localMaxAux f imax i fuel, 1 ≤ p ∧ p < imax := by
  intro fuel
  induction fuel with
  | zero => intro i _ p hp; simp [localMaxAux] at hp
  | succ fuel ih =>
    intro i hi p hp
    simp only [localMaxAux] at hp
    by_cases hlt : i < imax
    · rw [if_pos hlt] at hp
      by_cases hrise : f (i - 1) < f i
      · rw [if_pos hrise] at hp
        by_cases hfall : f (plateauEnd f imax (f i) (i + 1) imax) < f i
        · rw [if_pos hfall] at hp
          rcases List.mem_cons.mp hp with h | h
          · subst h
            have hge := plateauEnd_ge f imax (f i) imax (i + 1)
            have hle := plateauEnd_le f imax (f i) imax (i + 1) (by omega)
            constructor
            · have : i + i ≤ i + (plateauEnd f imax (f i) (i + 1) imax - 1) := by
                omega
              calc 1 ≤ i := hi
                _ = (i + i) / 2 := by omega
                _ ≤ _ := Nat.div_le_div_right this
            · have : i + (plateauEnd f imax (f i) (i + 1) imax - 1) ≤
                  (imax - 1) + (imax - 1) := by omega
              calc (i + (plateauEnd f imax (f i) (i + 1) imax - 1)) / 2 ≤
                  ((imax - 1) + (imax - 1)) / 2 := Nat.div_le_div_right this
                _ = imax - 1 := by omega
                _ < imax := by omega
          · exact ih _ (by omega) p h
        · rw [if_neg hfall] at hp
          exact ih _ (by omega) p hp
      · rw [if_neg hrise] at hp
        exact ih _ (by omega) p hp
    · rw [if_neg hlt] at hp
      simp at hp

theorem localMaxima_bounds (x : List ℚ) :
    ∀ p ∈ localMaxima x, 1 ≤ p ∧ p < x.length - 1 :=
  localMaxAux_bounds (xi x) (x.length - 1) (x.length + 1) 1 (le_refl 1)

theorem distanceFilter_subset (x : List ℚ) (peaks : List ℕ) (d : ℕ) :
    ∀ q ∈ distanceFilter x peaks d, q ∈ peaks := by
  intro q hq
  simp only [distanceFilter, List.mem_filterMap] at hq
  obtain ⟨i, _, hi⟩ := hq
  split at hi
  · exact List.get?_mem hi
  · exact absurd hi (by simp)

theorem findPeaks_subset (x : List ℚ) :
    ∀ q ∈ findPeaks x, q ∈ localMaxima x := by
  intro q hq
  simp only [findPeaks] at hq
  have h1 := List.mem_of_mem_filter hq
  have h2 := distanceFilter_subset x _ 20 q h1
  exact List.mem_of_mem_filter h2

theorem findPeaks_lt_length (x : List ℚ) :
    ∀ q ∈ findPeaks x, q < x.length := by
  intro q hq
  have := (localMaxima_bounds x q (findPeaks_subset x q hq)).2
  omega

/-- Every value of a signal entirely below the height floor fails the
height filter, so no peak qualifies. -/
theorem findPeaks_below_floor (x : List ℚ) (h : ∀ v ∈ x, v < 5) :
    findPeaks x = [] := by
  have hheight : (localMaxima x).filter (fun p => decide (5 ≤ xi x p)) = [] := by
    rw [List.filter_eq_nil_iff]
    intro p hp
    have hlt := (localMaxima_bounds x p hp).2
    have hmem : xi x p ∈ x := by
      have : p < x.length := by omega
      rw [xi, List.getD_eq_getElem x 0 this]
      exact x.getElem_mem this
    simp only [decide_eq_true_eq, not_le]
    exact h _ hmem
  simp only [findPeaks, hheight]
  rfl

theorem backFirst_some {f : ℕ → ℚ} {thresh : ℚ} :
    ∀ {b j : ℕ}, backFirst f thresh b = some j →
    j ≤ b ∧ f j < thresh ∧ ∀ k, j < k → k ≤ b → ¬(f k < thresh) := by
  intro b
  induction b with
  | zero =>
    intro j h
    simp only [backFirst] at h
    split at h
    · next hc =>
      injection h with h
      subst h
      exact ⟨le_refl 0, hc, fun k hk1 hk2 => by omega⟩
    · exact absurd h (by simp)
  | succ b ih =>
    intro j h
    simp only [backFirst] at h
    split at h
    · next hc =>
      obtain rfl : b + 1 = j := by injection h
      exact ⟨le_refl _, hc, fun k hk1 hk2 => by omega⟩
    · next hc =>
      obtain ⟨h1, h2, h3⟩ := ih h
      refine ⟨by omega, h2, ?_⟩
      intro k hk1 hk2
      rcases Nat.lt_or_ge k (b + 1) with hk | hk
      · exact h3 k hk1 (by omega)
      · have : k = b + 1 := by omega
        subst this
        exact hc

theorem backFirst_none {f : ℕ → ℚ} {thresh : ℚ} :
    ∀ {b : ℕ}, backFirst f thresh b = none →
    ∀ k, k ≤ b → ¬(f k < thresh) := by
  intro b
  induction b with
  | zero =>
    intro h k hk
    simp only [backFirst] at h
    split at h
    · exact absurd h (by simp)
    · next hc =>
      have : k = 0 := by omega
      subst this
      exact hc
  | succ b ih =>
    intro h k hk
    simp only [backFirst] at h
    split at h
    · exact absurd h (by simp)
    · next hc =>
      rcases Nat.lt_or_ge k (b + 1) with hlt | hge
      · exact ih h k (by omega)
      · have : k = b + 1 := by omega
        subst this
        exact hc

theorem fwdFirst_some {f : ℕ → ℚ} {thresh : ℚ} :
    ∀ {cnt i j : ℕ}, fwdFirst f thresh i cnt = some j →
    i ≤ j ∧ j < i + cnt ∧ f j < thresh ∧
      ∀ k, i ≤ k → k < j → ¬(f k < thresh) := by
  intro cnt
  induction cnt with
  | zero => intro i j h; exact absurd h (by simp [fwdFirst])
  | succ cnt ih =>
    intro i j h
    simp only [fwdFirst] at h
    split at h
    · next hc =>
      obtain rfl : i = j := by injection h
      exact ⟨le_refl i, by omega, hc, fun k hk1 hk2 => by omega⟩
    · next hc =>
      obtain ⟨h1, h2, h3, h4⟩ := ih h
      refine ⟨by omega, by omega, h3, ?_⟩
      intro k hk1 hk2
      rcases Nat.lt_or_ge i k with hik | hik
      · exact h4 k (by omega) hk2
      · have : k = i := by omega
        subst this
        exact hc

theorem fwdFirst_none {f : ℕ → ℚ} {thresh : ℚ} :
    ∀ {cnt i : ℕ}, fwdFirst f thresh i cnt = none →
    ∀ k, i ≤ k → k < i + cnt → ¬(f k < thresh) := by
  intro cnt
  induction cnt with
  | zero => intro i _ k hk1 hk2; omega
  | succ cnt ih =>
    intro i h k hk1 hk2
    simp only [fwdFirst] at h
    split at h
    · exact absurd h (by simp)
    · next hc =>
      rcases Nat.lt_or_ge i k with hik | hik
      · exact ih h k (by omega) (by omega)
      · have : k = i := by omega
        subst this
        exact hc

theorem matchBack_le (f : ℕ → ℚ) (th : ℚ) (best : ℕ) :
    (match best with
      | 0 => 0
      | bb + 1 => (backFirst f th bb).getD 0) ≤ best := by
  cases best with
  | zero => exact le_refl 0
  | succ bb =>
    show (backFirst f th bb).getD 0 ≤ bb + 1
    cases hbf : backFirst f th bb with
    | none => simp
    | some j =>
      have := (backFirst_some hbf).1
      simp only [Option.getD_some]
      omega

theorem fwd_getD_ge (f : ℕ → ℚ) (th : ℚ) (best n : ℕ) (hb : best < n) :
    best ≤ (fwdFirst f th (best + 1) (n - (best + 1))).getD (n - 1) := by
  cases hff : fwdFirst f th (best + 1) (n - (best + 1)) with
  | none => simp only [Option.getD_none]; omega
  | some j =>
    have := (fwdFirst_some hff).1
    simp only [Option.getD_some]
    omega

theorem fwd_getD_le (f : ℕ → ℚ) (th : ℚ) (best n : ℕ) (hb : best < n) :
    (fwdFirst f th (best + 1) (n - (best + 1))).getD (n - 1) ≤ n - 1 := by
  cases hff : fwdFirst f th (best + 1) (n - (best + 1)) with
  | none => simp
  | some j =>
    have h2 := (fwdFirst_some hff).2.1
    simp only [Option.getD_some]
    omega

/-- Structure of a successful `_find_phase_boundaries` call: the chosen
peak is a qualifying peak of maximal height, and the boundary indices are
ordered inside the series. -/
theorem findPhaseBoundaries_some {tms x : List ℚ} {b : Boundaries}
    (h : findPhaseBoundaries tms x = some b) :
    b.peakIdx ∈ findPeaks x ∧
    (∀ q ∈ findPeaks x, xi x q ≤ xi x b.peakIdx) ∧
    b.accelStartIdx ≤ b.peakIdx ∧ b.peakIdx ≤ b.decelEndIdx ∧
    b.decelEndIdx ≤ x.length - 1 ∧
    b.accelStartIdx = (match b.peakIdx with
      | 0 => 0
      | bb + 1 => (backFirst (xi x) (xi x b.peakIdx * (10 / 100)) bb).getD 0) ∧
    b.decelEndIdx = (fwdFirst (xi x) (xi x b.peakIdx * (10 / 100))
      (b.peakIdx + 1) (x.length - (b.peakIdx + 1))).getD (x.length - 1) := by
  have hne : ¬(findPeaks x).isEmpty := by
    intro he
    rw [findPhaseBoundaries, if_pos he] at h
    exact absurd h (by simp)
  rw [findPhaseBoundaries, if_neg hne] at h
  have hlt : ∀ q ∈ findPeaks x, q < x.length := findPeaks_lt_length x
  revert hne hlt h
  generalize findPeaks x = pks
  intro h hne hlt
  have hnil : pks ≠ [] := fun he => hne (by simp [he])
  have hhne : pks.map (xi x) ≠ [] := by simpa using hnil
  have hamax : argmaxList (pks.map (xi x)) < pks.length := by
    have := argmaxList_lt_length (pks.map (xi x)) hhne
    simpa using this
  have hbestmem : pks.getD (argmaxList (pks.map (xi x))) 0 ∈ pks := by
    rw [List.getD_eq_getElem pks 0 hamax]
    exact pks.getElem_mem hamax
  have hbestlt : pks.getD (argmaxList (pks.map (xi x))) 0 < x.length :=
    hlt _ hbestmem
  have hbestval : xi x (pks.getD (argmaxList (pks.map (xi x))) 0) =
      listMax (pks.map (xi x)) := by
    rw [← getD_argmaxList (pks.map (xi x)) hhne,
      List.getD_eq_getElem pks 0 hamax,
      List.getD_eq_getElem (pks.map (xi x)) 0 (by simpa using hamax)]
    simp
  have hmaxall : ∀ q ∈ pks,
      xi x q ≤ xi x (pks.getD (argmaxList (pks.map (xi x))) 0) := by
    intro q hq
    rw [hbestval]
    exact le_listMax _ _ (List.mem_map_of_mem (xi x) hq)
  have hb := Option.some.inj h
  have hP : b.peakIdx = pks.getD (argmaxList (pks.map (xi x))) 0 := by
    rw [← hb]
  have hA : b.accelStartIdx =
      (match pks.getD (argmaxList (pks.map (xi x))) 0 with
        | 0 => 0
        | bb + 1 => (backFirst (xi x)
            (xi x (pks.getD (argmaxList (pks.map (xi x))) 0) * (10 / 100))
            bb).getD 0) := by
    rw [← hb]
  have hD : b.decelEndIdx = (fwdFirst (xi x)
      (xi x (pks.getD (argmaxList (pks.map (xi x))) 0) * (10 / 100))
      (pks.getD (argmaxList (pks.map (xi x))) 0 + 1)
      (x.length - (pks.getD (argmaxList (pks.map (xi x))) 0 + 1))).getD
      (x.length - 1) := by
    rw [← hb]
  refine ⟨?_, ?_, ?_, ?_, ?_, ?_, ?_⟩
  · rw [hP]; exact hbestmem
  · rw [hP]; exact hmaxall
  · rw [hA, hP]; exact matchBack_le (xi x) _ _
  · rw [hP, hD]; exact fwd_getD_ge (xi x) _ _ x.length hbestlt
  · rw [hD]; exact fwd_getD_le (xi x) _ _ x.length hbestlt
  · rw [hP]; exact hA
  · rw [hP]; exact hD

theorem optContains_iff (o : Option (ℕ × ℕ)) (j : ℕ) :
    optContains o j = true ↔ ∃ I, o = some I ∧ I.1 ≤ j ∧ j ≤ I.2 := by
  cases o with
  | none => simp [optContains]
  | some I => simp [optContains]

/-- Convenience constructor for a per-frame metrics record carrying only a
phase classification (all angles undefined). -/
def mkM (i : ℕ) (p : SwingPhase) : SwingMetrics :=
  { frameIndex := i, phase := p }

/-! ## Claims -/

/-- A series whose per-frame classification revisits a phase: READY,
CONTACT, READY.  The dict of `_detect_phase_boundaries` keeps only the
last READY run. -/
def c1CexMetrics : List SwingMetrics :=
  [mkM 0 .ready, mkM 1 .contact, mkM 2 .ready]

/-- C1, counterexample: on the 3-frame series classified
[READY, CONTACT, READY] the phase map returned by
`_detect_phase_boundaries` assigns READY ↦ (2,2) (the first READY run is
overwritten) and CONTACT ↦ (1,1), so frame 0 belongs to no phase interval
— the intervals do not partition the index range, contradicting the claim
that every index belongs to exactly one phase interval. -/
theorem c1_partition_counterexample :
    (0 : ℕ) < c1CexMetrics.length ∧
    detectPhaseBoundaries c1CexMetrics .ready = some (2, 2) ∧
    detectPhaseBoundaries c1CexMetrics .contact = some (1, 1) ∧
    ¬ ∃ (p : SwingPhase) (I : ℕ × ℕ),
      detectPhaseBoundaries c1CexMetrics p = some I ∧ I.1 ≤ 0 ∧ 0 ≤ I.2 := by
  refine ⟨by decide, by decide, by decide, ?_⟩
  rintro ⟨p, I, h1, h2, h3⟩
  have hex : ∃ q : SwingPhase,
      optContains (detectPhaseBoundaries c1CexMetrics q) 0 = true :=
    ⟨p, (optContains_iff _ 0).mpr ⟨I, h1, h2, h3⟩⟩
  exact absurd hex (by decide)

/-- C1 (amended): (pose modality) provided no phase classification recurs
in separate runs — the run list has pairwise-distinct phases — the phase
intervals of `_detect_phase_boundaries` form a partition of the frame
range: the run list is chained (contiguous, nonempty, gapless, ordered by
start, covering `0 .. n-1` exactly), the returned dict holds exactly the
runs, and every frame index belongs to exactly one phase interval of the
dict.  (IMU modality) the boundary indices of `_find_phase_boundaries`
are ordered within the series, and the four phase intervals
`[0,rise], [rise,peak], [peak,fall], [fall,n-1]` built from them by
`analyze_swing` cover every sample index, consecutive intervals sharing
exactly their boundary index (rather than the pose modality's
`end = next start - 1`). -/
theorem c1_phase_partition_amended :
    (∀ metrics : List SwingMetrics, ((runs metrics).map Prod.fst).Nodup →
      chainedB 0 metrics.length (runs metrics) = true ∧
      (∀ (p : SwingPhase) (I : ℕ × ℕ),
        detectPhaseBoundaries metrics p = some I ↔ (p, I) ∈ runs metrics) ∧
      (∀ j, j < metrics.length →
        mapCount (detectPhaseBoundaries metrics) j = 1)) ∧
    (∀ (tms x : List ℚ) (b : Boundaries), findPhaseBoundaries tms x = some b →
      b.accelStartIdx ≤ b.peakIdx ∧ b.peakIdx ≤ b.decelEndIdx ∧
      b.decelEndIdx ≤ x.length - 1 ∧
      (∀ j, j < x.length →
        j ≤ b.accelStartIdx ∨
        (b.accelStartIdx ≤ j ∧ j ≤ b.peakIdx) ∨
        (b.peakIdx ≤ j ∧ j ≤ b.decelEndIdx) ∨
        (b.decelEndIdx ≤ j ∧ j ≤ x.length - 1))) := by
  constructor
  · intro metrics hnd
    refine ⟨runs_chained metrics, fun p I => lastAssoc_nodup_iff hnd p I, ?_⟩
    intro j hj
    obtain ⟨r0, hr0mem, hr0j, huniq⟩ := chained_unique (runs metrics) 0
      metrics.length j (runs_chained metrics) (Nat.zero_le j) hj
    obtain ⟨p0, s0, e0⟩ := r0
    have hpred : ∀ p ∈ allPhases,
        (optContains (detectPhaseBoundaries metrics p) j = true ↔ p = p0) := by
      intro p _
      constructor
      · intro hp
        obtain ⟨I, hI, hI1, hI2⟩ := (optContains_iff _ j).mp hp
        have hmem : (p, I) ∈ runs metrics := lastAssoc_mem hI
        have := huniq (p, I) hmem hI1 hI2
        exact congrArg Prod.fst this
      · intro hp
        have hd : detectPhaseBoundaries metrics p0 = some (s0, e0) :=
          (lastAssoc_nodup_iff hnd p0 (s0, e0)).mpr hr0mem
        refine (optContains_iff _ j).mpr ⟨(s0, e0), ?_, hr0j.1, hr0j.2⟩
        rw [hp]
        exact hd
    exact filter_singleton_length p0 allPhases _ hpred allPhases_nodup
      (allPhases_complete p0)
  · intro tms x b h
    obtain ⟨_, _, h3, h4, h5, _, _⟩ := findPhaseBoundaries_some h
    refine ⟨h3, h4, h5, ?_⟩
    intro j hj
    omega

/-- C1, witness: a 3-frame pose series with distinct phases satisfies the
partition properties, and the spike IMU signal below yields boundaries
(9, 10, 11) over 21 samples satisfying the ordering/cover properties. -/
def c1WMetrics : List SwingMetrics :=
  [mkM 0 .preparation, mkM 1 .contact, mkM 2 .followThrough]

def c1WT : List ℚ :=
  [0, 1, 2, 3, 4, 5, 6, 7, 8, 9, 10, 11, 12, 13, 14, 15, 16, 17, 18, 19, 20]

def c1WX : List ℚ :=
  [0, 0, 0, 0, 0, 0, 0, 0, 0, 0, 6, 0, 0, 0, 0, 0, 0, 0, 0, 0, 0]

theorem c1_phase_partition_witness :
    (chainedB 0 c1WMetrics.length (runs c1WMetrics) = true ∧
      (∀ (p : SwingPhase) (I : ℕ × ℕ),
        detectPhaseBoundaries c1WMetrics p = some I ↔ (p, I) ∈ runs c1WMetrics) ∧
      (∀ j, j < c1WMetrics.length →
        mapCount (detectPhaseBoundaries c1WMetrics) j = 1)) ∧
    ((⟨9, 10, 11, 9, 10, 11⟩ : Boundaries).accelStartIdx ≤
        (⟨9, 10, 11, 9, 10, 11⟩ : Boundaries).peakIdx ∧
      (⟨9, 10, 11, 9, 10, 11⟩ : Boundaries).peakIdx ≤
        (⟨9, 10, 11, 9, 10, 11⟩ : Boundaries).decelEndIdx ∧
      (⟨9, 10, 11, 9, 10, 11⟩ : Boundaries).decelEndIdx ≤ c1WX.length - 1 ∧
      (∀ j, j < c1WX.length →
        j ≤ (⟨9, 10, 11, 9, 10, 11⟩ : Boundaries).accelStartIdx ∨
        ((⟨9, 10, 11, 9, 10, 11⟩ : Boundaries).accelStartIdx ≤ j ∧
          j ≤ (⟨9, 10, 11, 9, 10, 11⟩ : Boundaries).peakIdx) ∨
        ((⟨9, 10, 11, 9, 10, 11⟩ : Boundaries).peakIdx ≤ j ∧
          j ≤ (⟨9, 10, 11, 9, 10, 11⟩ : Boundaries).decelEndIdx) ∨
        ((⟨9, 10, 11, 9, 10, 11⟩ : Boundaries).decelEndIdx ≤ j ∧
          j ≤ c1WX.length - 1))) :=
  ⟨c1_phase_partition_amended.1 c1WMetrics (by decide),
    c1_phase_partition_amended.2 c1WT c1WX ⟨9, 10, 11, 9, 10, 11⟩ (by decide)⟩

/-- The failing input for C2: a pose series classified
[CONTACT, READY, READY], whose CONTACT interval is (0, 0). -/
def c2Metrics : List SwingMetrics :=
  [mkM 0 .contact, mkM 1 .ready, mkM 2 .ready]

/-- C2: the claim matches the spec, but the code has a truthiness slip.
`_find_contact_frame` returns the CONTACT midpoint `(0+0)//2 = 0`, yet
`analyze_swing`'s `metrics_per_frame[contact_idx] if contact_idx else
metrics_per_frame[len(metrics_per_frame)//2]` treats the valid frame
index `0` as falsy (like `None`) and silently falls back to the middle
frame `3 // 2 = 1` instead of the CONTACT midpoint `0` — contradicting
`_find_contact_frame`'s own `Optional[int]` contract in which `None`,
not `0`, encodes absence.  The same `if contact_idx:` test skips the
contact checks in `_analyze_issues` and `_calculate_score`. -/
theorem c2_contact_frame_divergence :
    detectPhaseBoundaries c2Metrics .contact = some (0, 0) ∧
    findContactFrame (detectPhaseBoundaries c2Metrics) = some 0 ∧
    contactIdxPick (detectPhaseBoundaries c2Metrics) c2Metrics.length = 1 ∧
    calculateScore c2Metrics (detectPhaseBoundaries c2Metrics) = some 50 := by
  refine ⟨by decide, by decide, by decide, by decide⟩

theorem foldl_max_zero : ∀ (r : List ℚ) (a : ℚ), (∀ v ∈ r, v = 0) →
    a = 0 → r.foldl max a = 0 := by
  intro r
  induction r with
  | nil => intro a _ ha; exact ha
  | cons b r ih =>
    intro a hall ha
    have hb : b = 0 := hall b (List.mem_cons_self b r)
    simp only [List.foldl]
    exact ih (max a b) (fun v hv => hall v (List.mem_cons_of_mem b hv))
      (by rw [ha, hb]; simp)

theorem listMax_zero {l : List ℚ} (h : ∀ v ∈ l, v = 0) : listMax l = 0 := by
  match l with
  | [] => rfl
  | a :: r =>
    rw [listMax_cons]
    exact foldl_max_zero r a (fun v hv => h v (List.mem_cons_of_mem a hv))
      (h a (List.mem_cons_self a r))

/-- C3, counterexample: for the empty metric series (with the empty phase
map as its trivial partition) `_calculate_score` raises `ValueError`
(`max()` over an empty generator) instead of returning a score in
`[0, 100]` — modelled as `none`. -/
theorem c3_score_counterexample :
    calculateScore [] (fun _ => none) = none ∧
    ¬ ∃ s : ℚ, calculateScore [] (fun _ => none) = some s ∧
      0 ≤ s ∧ s ≤ 100 := by
  refine ⟨rfl, ?_⟩
  rintro ⟨s, hs, -, -⟩
  rw [show calculateScore [] (fun _ => none) = none from rfl] at hs
  exact absurd hs (by simp)

/-- C3 (amended): for every *nonempty* finite metric series and every
phase map whose CONTACT midpoint (if any) is a valid frame index — in
particular any phase partition of the series — `_calculate_score` returns
a score, the score lies in [0, 100], and when every evaluated metric is
undefined on every frame it equals the base score 50. -/
theorem c3_score_bounds_amended (metrics : List SwingMetrics)
    (phases : PhaseMap) (hne : metrics ≠ [])
    (hc : ∀ I : ℕ × ℕ, phases .contact = some I →
      (I.1 + I.2) / 2 < metrics.length) :
    ∃ s : ℚ, calculateScore metrics phases = some s ∧ 0 ≤ s ∧ s ≤ 100 ∧
      ((∀ m ∈ metrics, m.racketElbowAngle = none ∧ m.frontKneeAngle = none ∧
        m.torsoRotation = none) → s = 50) := by
  have hempty : metrics.isEmpty = false := by
    cases metrics with
    | nil => exact absurd rfl hne
    | cons a r => rfl
  have hcp : ∃ cp : ℚ, contactPartOf metrics phases = some cp ∧
      ((∀ m ∈ metrics, m.racketElbowAngle = none ∧ m.frontKneeAngle = none ∧
        m.torsoRotation = none) → cp = 0) := by
    cases hcf : findContactFrame phases with
    | none => exact ⟨0, by simp [contactPartOf, hcf], fun _ => rfl⟩
    | some i =>
      by_cases hi : i = 0
      · exact ⟨0, by simp [contactPartOf, hcf, hi], fun _ => rfl⟩
      · have hilt : i < metrics.length := by
          unfold findContactFrame at hcf
          cases hcon : phases .contact with
          | none => rw [hcon] at hcf; exact absurd hcf (by simp)
          | some I =>
            obtain ⟨I1, I2⟩ := I
            rw [hcon] at hcf
            have hmid : (I1 + I2) / 2 = i := by simpa using hcf
            have := hc (I1, I2) hcon
            simpa [hmid] using this
        cases hcget : metrics.get? i with
        | none =>
          exfalso
          have := List.get?_eq_none.mp hcget
          omega
        | some c =>
          have hcget2 : metrics[i]? = some c := by
            rw [← List.get?_eq_getElem?]
            exact hcget
          refine ⟨elbowAward c.racketElbowAngle + kneeAward c.frontKneeAngle,
            by simp [contactPartOf, hcf, if_neg hi, hcget2], ?_⟩
          intro hall
          have hcmem : c ∈ metrics := List.get?_mem hcget
          have hm := hall c hcmem
          rw [hm.1, hm.2.1]
          simp [elbowAward, kneeAward]
  obtain ⟨cp, hcpEq, hcp0⟩ := hcp
  refine ⟨min 100 (max 0 (50 + cp + torsoAward (maxTorsoOf metrics))),
    ?_, ?_, ?_, ?_⟩
  · simp [calculateScore, hcpEq, hempty]
  · exact le_min (by norm_num) (le_max_left 0 _)
  · exact min_le_left _ _
  · intro hall
    have h1 : cp = 0 := hcp0 hall
    have h2 : maxTorsoOf metrics = 0 := by
      unfold maxTorsoOf
      refine listMax_zero ?_
      intro v hv
      obtain ⟨m, hm, hmv⟩ := List.mem_map.mp hv
      rw [← hmv, (hall m hm).2.2]
      rfl
    have h3 : torsoAward 0 = 0 := by decide
    rw [h1, h2, h3]
    norm_num

/-- C3, witness: a one-frame all-undefined series with the empty phase
map scores exactly the base 50. -/
theorem c3_score_bounds_witness :
    ∃ s : ℚ, calculateScore [mkM 0 .ready] (fun _ => none) = some s ∧
      0 ≤ s ∧ s ≤ 100 ∧
      ((∀ m ∈ [mkM 0 .ready], m.racketElbowAngle = none ∧
        m.frontKneeAngle = none ∧ m.torsoRotation = none) → s = 50) :=
  c3_score_bounds_amended [mkM 0 .ready] (fun _ => none) (by simp)
    (fun I hI => absurd hI (by simp))

/-- C4: outside the ideal range, each metric's awarded points are a
linearly decaying function of the distance to the nearest range edge,
floored at 0: elbow and knee decay from the full 15-point budget at slope
1/2 (the source's `max(0, 15 - deviation * 0.5)` with `deviation` the
min-distance to the two edges), and torso decays at slope 3/10 from
53/4 = 13.25 (the source measures the deviation from the range midpoint
67.5, which exceeds the edge distance by the half-width 22.5 on either
side, so `20 - 0.3 * (d + 22.5) = 13.25 - 0.3 * d`). -/
theorem c4_linear_decay (e k t : ℚ)
    (he : ¬(150 ≤ e ∧ e ≤ 170)) (hk : ¬(140 ≤ k ∧ k ≤ 160))
    (ht : ¬(45 ≤ t ∧ t ≤ 90)) :
    elbowAward (some e) = max 0 (15 - distToRange e 150 170 * (1 / 2)) ∧
    kneeAward (some k) = max 0 (15 - distToRange k 140 160 * (1 / 2)) ∧
    torsoAward t = max 0 (53 / 4 - distToRange t 45 90 * (3 / 10)) := by
  refine ⟨?_, ?_, ?_⟩
  · by_cases he0 : e = 0
    · subst he0
      norm_num [elbowAward, distToRange]
    · simp only [elbowAward, if_neg he0, if_neg he]
      by_cases h1 : e < 150
      · have ha : |e - 150| = 150 - e := by rw [abs_of_nonpos (by linarith)]; ring
        have hb : |e - 170| = 170 - e := by rw [abs_of_nonpos (by linarith)]; ring
        rw [ha, hb, min_eq_left (by linarith), distToRange, if_pos h1]
      · have h2 : 170 < e := by
          push_neg at he h1
          exact he h1
        have ha : |e - 150| = e - 150 := abs_of_nonneg (by linarith)
        have hb : |e - 170| = e - 170 := abs_of_nonneg (by linarith)
        rw [ha, hb, min_eq_right (by linarith), distToRange, if_neg (by linarith),
          if_pos h2]
  · by_cases hk0 : k = 0
    · subst hk0
      norm_num [kneeAward, distToRange]
    · simp only [kneeAward, if_neg hk0, if_neg hk]
      by_cases h1 : k < 140
      · have ha : |k - 140| = 140 - k := by rw [abs_of_nonpos (by linarith)]; ring
        have hb : |k - 160| = 160 - k := by rw [abs_of_nonpos (by linarith)]; ring
        rw [ha, hb, min_eq_left (by linarith), distToRange, if_pos h1]
      · have h2 : 160 < k := by
          push_neg at hk h1
          exact hk h1
        have ha : |k - 140| = k - 140 := abs_of_nonneg (by linarith)
        have hb : |k - 160| = k - 160 := abs_of_nonneg (by linarith)
        rw [ha, hb, min_eq_right (by linarith), distToRange, if_neg (by linarith),
          if_pos h2]
  · simp only [torsoAward, if_neg ht]
    by_cases h1 : t < 45
    · have ha : |t - (45 + 90) / 2| = (45 + 90) / 2 - t := by
        rw [abs_of_nonpos (by linarith)]; ring
      rw [ha, distToRange, if_pos h1]
      congr 1
      ring
    · have h2 : 90 < t := by
        push_neg at ht h1
        exact ht h1
      have ha : |t - (45 + 90) / 2| = t - (45 + 90) / 2 :=
        abs_of_nonneg (by linarith)
      rw [ha, distToRange, if_neg (by linarith), if_pos h2]
      congr 1
      ring

/-- C4, witness: elbow 180° is 10° above its range and earns
`15 - 10 * 0.5 = 10` points; knee 180° is 20° above and earns 5; torso
100° is 10° above and earns `13.25 - 10 * 0.3 = 10.25` points. -/
theorem c4_linear_decay_witness :
    (¬((150:ℚ) ≤ 180 ∧ (180:ℚ) ≤ 170)) ∧
    (elbowAward (some 180) = max 0 (15 - distToRange 180 150 170 * (1 / 2)) ∧
      kneeAward (some 180) = max 0 (15 - distToRange 180 140 160 * (1 / 2)) ∧
      torsoAward 100 = max 0 (53 / 4 - distToRange 100 45 90 * (3 / 10))) ∧
    elbowAward (some 180) = 10 ∧ kneeAward (some 180) = 5 ∧
    torsoAward 100 = 41 / 4 :=
  ⟨by norm_num,
    c4_linear_decay 180 180 100 (by norm_num) (by norm_num) (by norm_num),
    by decide, by decide, by decide⟩

/-- The rise-boundary walk satisfies its specification: either it stopped
at the closest index below the peak whose value is under the threshold,
or no such index exists and it clamped to `0`. -/
theorem riseSpec (f : ℕ → ℚ) (th : ℚ) (best : ℕ) :
    ((match best with
        | 0 => 0
        | bb + 1 => (backFirst f th bb).getD 0) < best ∧
      f (match best with
        | 0 => 0
        | bb + 1 => (backFirst f th bb).getD 0) < th ∧
      ∀ k, (match best with
        | 0 => 0
        | bb + 1 => (backFirst f th bb).getD 0) < k → k < best →
        ¬(f k < th)) ∨
    ((match best with
        | 0 => 0
        | bb + 1 => (backFirst f th bb).getD 0) = 0 ∧
      ∀ k, k < best → ¬(f k < th)) := by
  cases best with
  | zero => exact Or.inr ⟨rfl, fun k hk => absurd hk (by omega)⟩
  | succ bb =>
    show ((backFirst f th bb).getD 0 < bb + 1 ∧
        f ((backFirst f th bb).getD 0) < th ∧
        ∀ k, (backFirst f th bb).getD 0 < k → k < bb + 1 → ¬(f k < th)) ∨
      ((backFirst f th bb).getD 0 = 0 ∧ ∀ k, k < bb + 1 → ¬(f k < th))
    cases hbf : backFirst f th bb with
    | none =>
      refine Or.inr ⟨rfl, ?_⟩
      intro k hk
      exact backFirst_none hbf k (by omega)
    | some j =>
      obtain ⟨hj1, hj2, hj3⟩ := backFirst_some hbf
      refine Or.inl ⟨by simp only [Option.getD_some]; omega,
        by simpa using hj2, ?_⟩
      intro k hk1 hk2
      exact hj3 k (by simpa using hk1) (by omega)

/-- The fall-boundary walk satisfies its specification: either it stopped
at the closest index above the peak whose value is under the threshold,
or no such index exists and it clamped to the last index. -/
theorem fallSpec (f : ℕ → ℚ) (th : ℚ) (best n : ℕ) (hb : best < n) :
    (best < (fwdFirst f th (best + 1) (n - (best + 1))).getD (n - 1) ∧
      f ((fwdFirst f th (best + 1) (n - (best + 1))).getD (n - 1)) < th ∧
      ∀ k, best < k →
        k < (fwdFirst f th (best + 1) (n - (best + 1))).getD (n - 1) →
        ¬(f k < th)) ∨
    ((fwdFirst f th (best + 1) (n - (best + 1))).getD (n - 1) = n - 1 ∧
      ∀ k, best < k → k < n → ¬(f k < th)) := by
  cases hff : fwdFirst f th (best + 1) (n - (best + 1)) with
  | none =>
    refine Or.inr ⟨rfl, ?_⟩
    intro k hk1 hk2
    exact fwdFirst_none hff k (by omega) (by omega)
  | some j =>
    obtain ⟨hj1, hj2, hj3, hj4⟩ := fwdFirst_some hff
    refine Or.inl ⟨by simp only [Option.getD_some]; omega,
      by simpa using hj3, ?_⟩
    intro k hk1 hk2
    exact hj4 k (by omega) (by simpa using hk2)

/-- C5 (amended): when at least the minimum number of samples is supplied
and the *conditioned* gyro-magnitude signal never reaches the 5 rad/s
floor, `analyze_swing` returns the structured no-swing error result (it
is a total function — nothing is raised), and its diagnostic
`peak_gyro_rad_s` is the maximum of the *conditioned* (smoothed) gyro
magnitude — not of the raw magnitude as the claim states.  Holds for
every conditioner `filt` and every magnitude function `norm3`. -/
theorem c5_no_swing_amended (norm3 : ℚ × ℚ × ℚ → ℚ)
    (filt : List ℚ → List ℚ) (samples : List ImuSample)
    (hn : 10 ≤ samples.length)
    (hlow : ∀ v ∈ smoothFn filt (samples.map fun s => norm3 s.gyro), v < 5) :
    analyzeSwing norm3 filt samples =
      .noSwing (listMax (smoothFn filt (samples.map fun s => norm3 s.gyro)))
        (samples.map (·.t))
        (smoothFn filt (samples.map fun s => norm3 s.gyro))
        (smoothFn filt (samples.map fun s => norm3 s.accel))
        (samples.map fun s => norm3 s.gyro) := by
  have hfpb : findPhaseBoundaries (samples.map (·.t))
      (smoothFn filt (samples.map fun s => norm3 s.gyro)) = none := by
    unfold findPhaseBoundaries
    rw [findPeaks_below_floor _ hlow]
    rfl
  simp only [analyzeSwing]
  rw [if_neg (by omega)]
  simp only [hfpb]

/-- The IMU samples of the C5 counterexample: 15 samples, gyro pointing
along the x axis, one spike of 6 rad/s at index 7, zero elsewhere.
On such axis-aligned vectors the Euclidean norm is exactly `|x|`. -/
def c5Samples : List ImuSample :=
  (List.range 15).map fun i =>
    { t := i, gyro := (if i = 7 then 6 else 0, 0, 0), accel := (0, 0, 0) }

/-- `np.linalg.norm` restricted to the axis-aligned vectors of
`c5Samples`, where it equals the absolute value of the x coordinate. -/
def c5Norm (v : ℚ × ℚ × ℚ) : ℚ := |v.1|

/-- C5, counterexample to the claim as stated: with the window-3 moving
average as the conditioner (a conditioner satisfying the spec's
SignalConditioner contract, standing in for the scipy Butterworth filter
whose irrational coefficients live outside the repository), the spike of
raw magnitude 6 is smoothed to 2, the conditioned signal stays below the
5 rad/s floor, and the no-swing result reports `peak_gyro_rad_s = 2` —
the maximum of the *smoothed* magnitude (`np.max(gyro_mag)` on line 155
of `swing_analyzer.py`) — while the maximum *raw* gyro magnitude is 6. -/
theorem c5_raw_max_counterexample :
    10 ≤ c5Samples.length ∧
    (∀ v ∈ smoothFn movingAvg3 (c5Samples.map fun s => c5Norm s.gyro),
      v < 5) ∧
    analyzeSwing c5Norm movingAvg3 c5Samples =
      .noSwing 2 (c5Samples.map (·.t))
        (smoothFn movingAvg3 (c5Samples.map fun s => c5Norm s.gyro))
        (smoothFn movingAvg3 (c5Samples.map fun s => c5Norm s.accel))
        (c5Samples.map fun s => c5Norm s.gyro) ∧
    listMax (c5Samples.map fun s => c5Norm s.gyro) = 6 ∧ (2 : ℚ) ≠ 6 := by
  exact ⟨by decide, by decide, by decide, by decide, by decide⟩

/-- C5, witness for the amended theorem: ten samples of constant
1 rad/s gyro magnitude (below the floor; conditioning is the identity for
fewer than 15 samples) yield the structured no-swing result carrying
`peak_gyro_rad_s = 1`. -/
def c5WSamples : List ImuSample :=
  (List.range 10).map fun i => { t := i, gyro := (1, 0, 0), accel := (0, 0, 0) }

theorem c5_no_swing_witness :
    analyzeSwing c5Norm id c5WSamples =
      .noSwing (listMax (smoothFn id (c5WSamples.map fun s => c5Norm s.gyro)))
        (c5WSamples.map (·.t))
        (smoothFn id (c5WSamples.map fun s => c5Norm s.gyro))
        (smoothFn id (c5WSamples.map fun s => c5Norm s.accel))
        (c5WSamples.map fun s => c5Norm s.gyro) :=
  c5_no_swing_amended c5Norm id c5WSamples (by decide) (by decide)

/-- C6: on every conditioned signal with at least one qualifying peak,
`_find_phase_boundaries` succeeds; the chosen peak is a qualifying peak
of maximal height; the rise boundary is the first index, scanning
backward from the peak, whose value drops below 10% of the peak value
(clamped to 0 when no crossing exists); and the fall boundary is the
symmetric forward scan (clamped to the last index). -/
theorem c6_event_detector (tms x : List ℚ) (hne : findPeaks x ≠ []) :
    ∃ b, findPhaseBoundaries tms x = some b ∧
      b.peakIdx ∈ findPeaks x ∧
      (∀ q ∈ findPeaks x, xi x q ≤ xi x b.peakIdx) ∧
      ((b.accelStartIdx < b.peakIdx ∧
          xi x b.accelStartIdx < xi x b.peakIdx * (10 / 100) ∧
          ∀ k, b.accelStartIdx < k → k < b.peakIdx →
            ¬(xi x k < xi x b.peakIdx * (10 / 100))) ∨
        (b.accelStartIdx = 0 ∧
          ∀ k, k < b.peakIdx → ¬(xi x k < xi x b.peakIdx * (10 / 100)))) ∧
      ((b.peakIdx < b.decelEndIdx ∧
          xi x b.decelEndIdx < xi x b.peakIdx * (10 / 100) ∧
          ∀ k, b.peakIdx < k → k < b.decelEndIdx →
            ¬(xi x k < xi x b.peakIdx * (10 / 100))) ∨
        (b.decelEndIdx = x.length - 1 ∧
          ∀ k, b.peakIdx < k → k < x.length →
            ¬(xi x k < xi x b.peakIdx * (10 / 100)))) := by
  cases hb : findPhaseBoundaries tms x with
  | none =>
    exfalso
    unfold findPhaseBoundaries at hb
    by_cases he : (findPeaks x).isEmpty
    · exact hne (List.isEmpty_iff.mp he)
    · rw [if_neg he] at hb
      exact absurd hb (by simp)
  | some b =>
    obtain ⟨h1, h2, h3, h4, h5, hA, hD⟩ := findPhaseBoundaries_some hb
    have hpkl : b.peakIdx < x.length := findPeaks_lt_length x _ h1
    refine ⟨b, rfl, h1, h2, ?_, ?_⟩
    · rw [hA]
      exact riseSpec (xi x) (xi x b.peakIdx * (10 / 100)) b.peakIdx
    · rw [hD]
      exact fallSpec (xi x) (xi x b.peakIdx * (10 / 100)) b.peakIdx
        x.length hpkl

/-- The spike signal used as the C6 witness. -/
def c6WT : List ℚ :=
  [0, 1, 2, 3, 4, 5, 6, 7, 8, 9, 10, 11, 12, 13, 14, 15, 16, 17, 18, 19, 20]

def c6WX : List ℚ :=
  [0, 0, 0, 0, 0, 0, 0, 0, 0, 0, 6, 0, 0, 0, 0, 0, 0, 0, 0, 0, 0]

theorem c6_event_detector_witness :
    ∃ b, findPhaseBoundaries c6WT c6WX = some b ∧
      b.peakIdx ∈ findPeaks c6WX ∧
      (∀ q ∈ findPeaks c6WX, xi c6WX q ≤ xi c6WX b.peakIdx) ∧
      ((b.accelStartIdx < b.peakIdx ∧
          xi c6WX b.accelStartIdx < xi c6WX b.peakIdx * (10 / 100) ∧
          ∀ k, b.accelStartIdx < k → k < b.peakIdx →
            ¬(xi c6WX k < xi c6WX b.peakIdx * (10 / 100))) ∨
        (b.accelStartIdx = 0 ∧
          ∀ k, k < b.peakIdx →
            ¬(xi c6WX k < xi c6WX b.peakIdx * (10 / 100)))) ∧
      ((b.peakIdx < b.decelEndIdx ∧
          xi c6WX b.decelEndIdx < xi c6WX b.peakIdx * (10 / 100) ∧
          ∀ k, b.peakIdx < k → k < b.decelEndIdx →
            ¬(xi c6WX k < xi c6WX b.peakIdx * (10 / 100))) ∨
        (b.decelEndIdx = c6WX.length - 1 ∧
          ∀ k, b.peakIdx < k → k < c6WX.length →
            ¬(xi c6WX k < xi c6WX b.peakIdx * (10 / 100)))) :=
  c6_event_detector c6WT c6WX (by decide)

/-- C7: any IMU input below the 10-sample floor — including the empty
sequence — produces the structured `{"error": ..., "phases": None}`
value (the `tooFewSamples` result) and nothing is raised (the analyzer is
a total function), for every conditioner and magnitude function. -/
theorem c7_too_few_samples (norm3 : ℚ × ℚ × ℚ → ℚ)
    (filt : List ℚ → List ℚ) (samples : List ImuSample)
    (h : samples.length < 10) :
    analyzeSwing norm3 filt samples = .tooFewSamples := by
  unfold analyzeSwing
  rw [if_pos h]

/-- C7, witness: the empty sequence and a five-sample burst both yield
the structured error result. -/
theorem c7_too_few_samples_witness :
    analyzeSwing c5Norm id [] = .tooFewSamples ∧
    analyzeSwing c5Norm id ((List.range 5).map fun i =>
      { t := i, gyro := (9, 0, 0), accel := (0, 0, 0) }) = .tooFewSamples :=
  ⟨c7_too_few_samples c5Norm id [] (by decide),
    c7_too_few_samples c5Norm id _ (by decide)⟩

theorem sosfiltRun_length (b0 b1 b2 a1 a2 : ℚ) :
    ∀ (l : List ℚ) (st : ℚ × ℚ),
    (sosfiltRun b0 b1 b2 a1 a2 st l).length = l.length := by
  intro l
  induction l with
  | nil => intro st; rfl
  | cons v r ih =>
    intro st
    simp only [sosfiltRun, List.length_cons, ih]

theorem oddExt_length (x : List ℚ) (k : ℕ) :
    (oddExt x k).length = x.length + 2 * k := by
  simp only [oddExt, List.length_append, List.length_map, List.length_range]
  omega

theorem sosfiltfiltModel_length (b0 b1 b2 a1 a2 zi1 zi2 : ℚ) (x : List ℚ) :
    (sosfiltfiltModel b0 b1 b2 a1 a2 zi1 zi2 x).length = x.length := by
  simp only [sosfiltfiltModel, List.length_take, List.length_drop,
    List.length_reverse, sosfiltRun_length, oddExt_length]
  omega

theorem savgolModel_length (kernel : List ℚ) (edgeFit : List ℚ → ℕ → ℚ)
    (w : ℕ) (x : List ℚ) : (savgolModel kernel edgeFit w x).length = x.length := by
  simp [savgolModel]

/-- C8: both signal conditioners preserve the sample count exactly and
return too-short inputs unchanged.  IMU modality: `_smooth` (guard at 15
samples, then the forward–backward filter, whose padding/filter/slice
structure preserves length for any section coefficients and initial
state).  Export modality: `smooth_array` (guard at `window`, which is odd
at every call site — 15 default, 11/15 computed), for any Savitzky–Golay
kernel and edge fit. -/
theorem c8_conditioner_length (b0 b1 b2 a1 a2 zi1 zi2 : ℚ) (x : List ℚ)
    (kernel : List ℚ) (edgeFit : List ℚ → ℕ → ℚ) (w : ℕ) (y : List ℚ)
    (hw : w % 2 = 1) :
    ((smoothFn (sosfiltfiltModel b0 b1 b2 a1 a2 zi1 zi2) x).length =
        x.length ∧
      (x.length < 15 → smoothFn (sosfiltfiltModel b0 b1 b2 a1 a2 zi1 zi2) x
        = x)) ∧
    (∃ z, smoothArray kernel edgeFit w y = some z ∧ z.length = y.length ∧
      (y.length < w → z = y)) := by
  constructor
  · constructor
    · unfold smoothFn
      by_cases h : x.length < 15
      · rw [if_pos h]
      · rw [if_neg h]
        exact sosfiltfiltModel_length b0 b1 b2 a1 a2 zi1 zi2 x
    · intro h
      unfold smoothFn
      rw [if_pos h]
  · unfold smoothArray
    by_cases h : y.length < w
    · rw [if_pos h]
      exact ⟨y, rfl, rfl, fun _ => rfl⟩
    · rw [if_neg h]
      have hodd : ¬(w % 2 = 0) := by omega
      rw [if_neg hodd, if_neg h]
      refine ⟨savgolModel kernel edgeFit w y, rfl,
        savgolModel_length kernel edgeFit w y, ?_⟩
      intro hlt
      exact absurd hlt h

/-- C8, witness: window 3 with a 2-sample input (returned unchanged) and
a 3-sample input (smoothed, same length); the IMU conditioner with unit
coefficients on a 3-sample input returns it unchanged (below the
15-sample guard). -/
theorem c8_conditioner_length_witness :
    (((smoothFn (sosfiltfiltModel 1 1 1 1 1 1 1) [1, 2, 3]).length =
        ([1, 2, 3] : List ℚ).length ∧
      (([1, 2, 3] : List ℚ).length < 15 →
        smoothFn (sosfiltfiltModel 1 1 1 1 1 1 1) [1, 2, 3] = [1, 2, 3])) ∧
    (∃ z, smoothArray [1] (fun _ _ => 0) 3 [4, 5] = some z ∧
      z.length = ([4, 5] : List ℚ).length ∧
      (([4, 5] : List ℚ).length < 3 → z = [4, 5]))) ∧
    ((3 : ℕ) % 2 = 1) :=
  ⟨c8_conditioner_length 1 1 1 1 1 1 1 [1, 2, 3] [1] (fun _ _ => 0) 3 [4, 5]
    (by decide), by decide⟩

/-- C9: `_calculate_torso_rotation` returns `None` exactly when a
required keypoint is missing or a projected vector norm is below the
`1e-8` epsilon; otherwise it returns
`degrees(arccos(clip(dot/(norm_s*norm_h), -1, 1)))`, the clipped cosine
always lies in `[-1, 1]`, and when defined the divisor
`norm_s * norm_h` is nonzero — no division by zero, and the function is
total (never raises). -/
theorem c9_torso_rotation (f : TorsoKeypoints) :
    (torsoRotationOf f = none ↔ torsoDefined f = false) ∧
    (-1 ≤ torsoClippedCos f ∧ torsoClippedCos f ≤ 1) ∧
    (torsoDefined f = true →
      torsoRotationOf f =
        some (Real.arccos (torsoClippedCos f) * 180 / Real.pi) ∧
      Real.sqrt (torsoNormSqS f) * Real.sqrt (torsoNormSqH f) ≠ 0) := by
  have hε : (0 : ℝ) < (torsoEps : ℝ) := by
    have : (0 : ℚ) < torsoEps := by norm_num [torsoEps]
    exact_mod_cast this
  have hkey : ∀ q : ℚ,
      (Real.sqrt (q : ℝ) < (torsoEps : ℝ) ↔ q < torsoEps ^ 2) := by
    intro q
    rw [Real.sqrt_lt' hε]
    norm_cast
  have hcondIff :
      (Real.sqrt (torsoNormSqS f) < (torsoEps : ℝ) ∨
        Real.sqrt (torsoNormSqH f) < (torsoEps : ℝ)) ↔
      (torsoNormSqS f < torsoEps ^ 2 ∨ torsoNormSqH f < torsoEps ^ 2) := by
    constructor
    · rintro (h | h)
      · exact Or.inl ((hkey _).mp h)
      · exact Or.inr ((hkey _).mp h)
    · rintro (h | h)
      · exact Or.inl ((hkey _).mpr h)
      · exact Or.inr ((hkey _).mpr h)
  refine ⟨?_, ⟨?_, ?_⟩, ?_⟩
  · unfold torsoRotationOf torsoDefined
    cases hls : f.leftShoulder with
    | none => simp
    | some ls =>
      cases hrs : f.rightShoulder with
      | none => simp
      | some rs =>
        cases hlh : f.leftHip with
        | none => simp
        | some lh =>
          cases hrh : f.rightHip with
          | none => simp
          | some rh =>
            by_cases hA : torsoNormSqS f < torsoEps ^ 2 ∨
                torsoNormSqH f < torsoEps ^ 2
            · rw [if_pos (hcondIff.mpr hA), if_pos hA]
              simp
            · rw [if_neg (fun h => hA (hcondIff.mp h)), if_neg hA]
              simp
  · exact le_min (le_max_right _ _) (by norm_num)
  · exact min_le_right _ _
  · intro hd
    unfold torsoRotationOf
    unfold torsoDefined at hd
    cases hls : f.leftShoulder with
    | none => rw [hls] at hd; exact absurd hd (by simp)
    | some ls =>
      cases hrs : f.rightShoulder with
      | none => rw [hls, hrs] at hd; exact absurd hd (by simp)
      | some rs =>
        cases hlh : f.leftHip with
        | none => rw [hls, hrs, hlh] at hd; exact absurd hd (by simp)
        | some lh =>
          cases hrh : f.rightHip with
          | none => rw [hls, hrs, hlh, hrh] at hd; exact absurd hd (by simp)
          | some rh =>
            rw [hls, hrs, hlh, hrh] at hd
            by_cases hA : torsoNormSqS f < torsoEps ^ 2 ∨
                torsoNormSqH f < torsoEps ^ 2
            · rw [if_pos hA] at hd
              exact absurd hd (by simp)
            · push_neg at hA
              constructor
              · rw [if_neg (fun h => ?_)]
                rcases hcondIff.mp h with h1 | h1
                · exact absurd h1 (not_lt.mpr hA.1)
                · exact absurd h1 (not_lt.mpr hA.2)
              · have hq : (0 : ℚ) < torsoEps ^ 2 := by norm_num [torsoEps]
                have h1 : (0 : ℝ) < (torsoNormSqS f : ℝ) := by
                  exact_mod_cast lt_of_lt_of_le hq hA.1
                have h2 : (0 : ℝ) < (torsoNormSqH f : ℝ) := by
                  exact_mod_cast lt_of_lt_of_le hq hA.2
                exact mul_ne_zero (ne_of_gt (Real.sqrt_pos.mpr h1))
                  (ne_of_gt (Real.sqrt_pos.mpr h2))

/-- The keypoints of the C9 witness: shoulder line and hip line both
horizontal unit vectors — defined, cosine 1. -/
def c9WFrame : TorsoKeypoints :=
  { leftShoulder := some ⟨0, 0, 0, 1⟩, rightShoulder := some ⟨1, 0, 0, 1⟩,
    leftHip := some ⟨0, 1, 0, 1⟩, rightHip := some ⟨1, 1, 0, 1⟩ }

theorem c9_torso_rotation_witness :
    torsoDefined c9WFrame = true ∧
    (-1 ≤ torsoClippedCos c9WFrame ∧ torsoClippedCos c9WFrame ≤ 1) ∧
    torsoRotationOf c9WFrame =
      some (Real.arccos (torsoClippedCos c9WFrame) * 180 / Real.pi) ∧
    Real.sqrt (torsoNormSqS c9WFrame) * Real.sqrt (torsoNormSqH c9WFrame)
      ≠ 0 :=
  ⟨by decide, (c9_torso_rotation c9WFrame).2.1,
    ((c9_torso_rotation c9WFrame).2.2 (by decide)).1,
    ((c9_torso_rotation c9WFrame).2.2 (by decide)).2⟩

/-- C10: on every nonempty analyzed pose series, the headline fields are
defined rational numbers: when the chosen contact frame's elbow (resp.
knee) angle is undefined the result reports 0 for it (`x or 0`), and
`max_torso_rotation` maps every undefined per-frame torso rotation to 0,
so an all-undefined series reports `max_torso_rotation = 0`. -/
theorem c10_headline_defined (metrics : List SwingMetrics)
    (hne : metrics ≠ []) :
    ∃ hl : ℚ × ℚ × ℚ, headlineOf metrics = some hl ∧
      (∀ cm, metrics.get? (contactIdxPick (detectPhaseBoundaries metrics)
          metrics.length) = some cm →
        (cm.racketElbowAngle = none → hl.2.1 = 0) ∧
        (cm.frontKneeAngle = none → hl.2.2 = 0)) ∧
      ((∀ m ∈ metrics, m.torsoRotation = none) → hl.1 = 0) := by
  have hempty : metrics.isEmpty = false := by
    cases metrics with
    | nil => exact absurd rfl hne
    | cons a r => rfl
  have hnlen : 0 < metrics.length := by
    cases metrics with
    | nil => exact absurd rfl hne
    | cons a r => simp
  have hci : contactIdxPick (detectPhaseBoundaries metrics) metrics.length <
      metrics.length := by
    unfold contactIdxPick
    cases hcf : findContactFrame (detectPhaseBoundaries metrics) with
    | none => exact Nat.div_lt_self hnlen one_lt_two
    | some i =>
      show (if i ≠ 0 then i else metrics.length / 2) < metrics.length
      by_cases hi : i ≠ 0
      · rw [if_pos hi]
        unfold findContactFrame at hcf
        cases hcon : detectPhaseBoundaries metrics .contact with
        | none => rw [hcon] at hcf; exact absurd hcf (by simp)
        | some I =>
          obtain ⟨s, e⟩ := I
          rw [hcon] at hcf
          have hmid : (s + e) / 2 = i := by simpa using hcf
          have hmem : (SwingPhase.contact, (s, e)) ∈ runs metrics :=
            lastAssoc_mem hcon
          have hbound := chained_mem (runs metrics) 0 metrics.length _
            (runs_chained metrics) hmem
          simp only at hbound
          omega
      · rw [if_neg hi]
        exact Nat.div_lt_self hnlen one_lt_two
  cases hcm : metrics.get?
      (contactIdxPick (detectPhaseBoundaries metrics) metrics.length) with
  | none =>
    exfalso
    have := List.get?_eq_none.mp hcm
    omega
  | some cm0 =>
    have hcm2 : metrics[contactIdxPick (detectPhaseBoundaries metrics)
        metrics.length]? = some cm0 := by
      rw [← List.get?_eq_getElem?]
      exact hcm
    refine ⟨(maxTorsoOf metrics, cm0.racketElbowAngle.getD 0,
      cm0.frontKneeAngle.getD 0), ?_, ?_, ?_⟩
    · simp [headlineOf, hempty, hcm2]
    · intro cm hcmeq
      injection hcmeq with h
      subst h
      constructor
      · intro h0
        show cm0.racketElbowAngle.getD 0 = 0
        rw [h0]
        rfl
      · intro h0
        show cm0.frontKneeAngle.getD 0 = 0
        rw [h0]
        rfl
    · intro hall
      show maxTorsoOf metrics = 0
      unfold maxTorsoOf
      refine listMax_zero ?_
      intro v hv
      obtain ⟨m, hm, hmv⟩ := List.mem_map.mp hv
      rw [← hmv, hall m hm]
      rfl

/-- C10, witness: a single all-undefined READY frame reports headline
values `(0, 0, 0)`. -/
theorem c10_headline_defined_witness :
    ∃ hl : ℚ × ℚ × ℚ, headlineOf [mkM 0 .ready] = some hl ∧
      (∀ cm, [mkM 0 .ready].get?
          (contactIdxPick (detectPhaseBoundaries [mkM 0 .ready])
            [mkM 0 .ready].length) = some cm →
        (cm.racketElbowAngle = none → hl.2.1 = 0) ∧
        (cm.frontKneeAngle = none → hl.2.2 = 0)) ∧
      ((∀ m ∈ [mkM 0 .ready], m.torsoRotation = none) → hl.1 = 0) :=
  c10_headline_defined [mkM 0 .ready] (by simp)

end SwingCoach
